import Mathlib

/-!
Verification of the LottoSmart backend (`src/backend/server.py`) against its
natural-language specification.

Shallow embedding conventions:
* drawn numbers are naturals (the source converts the stored digit strings with
  `int(d)`; the statistics and generation logic only ever sees the integers);
* Python `float` arithmetic on percentages / sum bounds is embedded in `ℚ`
  (all claim-relevant comparisons are far from representation boundaries);
* Python's `round(x, 1)` (round-half-to-even) is `pyRound1`, `int(x)`
  (truncation toward zero) is `pyInt`;
* the non-deterministic `random` module is embedded by threading an explicit
  entropy source `Rng` (a stream of naturals); `random.choice` / `random.sample`
  return `none` exactly where CPython would raise (empty population /
  sample larger than population), so "never fails" claims are `isSome` facts
  quantified over every entropy stream;
* `dict` / `Counter` iteration order (insertion order = first occurrence) is
  embedded by `pyDedupFirst`; Python's stable sorts (`sorted`, also with
  `reverse=True`, and `Counter.most_common`) are embedded with the stable
  `List.insertionSort`.
-/

/-- Entropy source standing for the `random` module's PRNG state: a stream of
naturals, yielding 0 once exhausted. -/
structure Rng where
  stream : List Nat

/-- Draw the next raw natural from the entropy source. -/
def Rng.next : Rng → Nat × Rng
  | ⟨[]⟩ => (0, ⟨[]⟩)
  | ⟨x :: xs⟩ => (x, ⟨xs⟩)

/-- `random.choice(l)`: uniform element of a non-empty list; CPython raises
`IndexError` on an empty one, embedded as `none`. -/
def pyChoice (l : List ℕ) (r : Rng) : Option (ℕ × Rng) :=
  if h : 0 < l.length then
    let p := r.next
    some (l.get ⟨p.1 % l.length, Nat.mod_lt _ h⟩, p.2)
  else none

/-- Auxiliary recursion for `pySample`: repeatedly pick a position of the
remaining population and remove it (sampling without replacement). -/
def sampleGo : List ℕ → ℕ → Rng → List ℕ × Rng
  | _, 0, r => ([], r)
  | l, k + 1, r =>
    if h : 0 < l.length then
      let p := r.next
      let i : Fin l.length := ⟨p.1 % l.length, Nat.mod_lt _ h⟩
      let rest := sampleGo (l.eraseIdx i) k p.2
      (l.get i :: rest.1, rest.2)
    else ([], r)

/-- `random.sample(l, k)`: `k` elements of `l` drawn at distinct positions;
CPython raises `ValueError` when `k > len(l)`, embedded as `none`. -/
def pySample (l : List ℕ) (k : ℕ) (r : Rng) : Option (List ℕ × Rng) :=
  if k ≤ l.length then some (sampleGo l k r) else none

/-- `list(set(l))` / `dict` key collection: the distinct elements of `l`.
CPython's `set` iteration order is unspecified; the embedding fixes the
first-occurrence order (for `Counter` keys this is exactly CPython's
insertion order). -/
def pyDedupFirst (l : List ℕ) : List ℕ :=
  l.foldl (fun acc x => if x ∈ acc then acc else acc ++ [x]) []

/-- `sum(nums)` of a list of drawn numbers, read as a rational (the source
compares it against float bounds). -/
def sumQ (l : List ℕ) : ℚ := (l.map fun x : ℕ => (x : ℚ)).sum

/-- `sum(1 for n in nums if n % 2 == 0)`. -/
def countEven (l : List ℕ) : ℕ := l.countP fun x => x % 2 = 0

/-- Python's `round` to an integer: round half to even. -/
def pyRoundInt (q : ℚ) : ℤ :=
  if q - ⌊q⌋ < 1 / 2 then ⌊q⌋
  else if q - ⌊q⌋ > 1 / 2 then ⌊q⌋ + 1
  else if ⌊q⌋ % 2 = 0 then ⌊q⌋ else ⌊q⌋ + 1

/-- Python's `round(x, 1)`: round to one decimal, half to even. -/
def pyRound1 (q : ℚ) : ℚ := (pyRoundInt (q * 10) : ℚ) / 10

/-- Python's `int(x)` on a float: truncation toward zero. -/
def pyInt (q : ℚ) : ℤ := if 0 ≤ q then ⌊q⌋ else ⌈q⌉

/-- The four lottery games of `LOTTERY_CONFIG` (the keys of the table). -/
inductive LotteryType
  | quina
  | dupla_sena
  | lotofacil
  | megasena
deriving DecidableEq, Repr

/-- One entry of `LOTTERY_CONFIG` (the `api_name` field only feeds the
upstream HTTP fetch and is out of the embedded core). -/
structure Config where
  max_number : ℕ
  numbers_to_pick : ℕ
  prize_tiers : List (ℕ × String)
  min_prize : ℕ
deriving DecidableEq

/-- The static `LOTTERY_CONFIG` table. -/
def lotteryConfig : LotteryType → Config
  | .quina =>
      { max_number := 80, numbers_to_pick := 5
        prize_tiers := [(5, "Quina"), (4, "Quadra"), (3, "Terno"), (2, "Duque")]
        min_prize := 2 }
  | .dupla_sena =>
      { max_number := 50, numbers_to_pick := 6
        prize_tiers := [(6, "Sena"), (5, "Quina"), (4, "Quadra"), (3, "Terno")]
        min_prize := 3 }
  | .lotofacil =>
      { max_number := 25, numbers_to_pick := 15
        prize_tiers := [(15, "15 acertos"), (14, "14 acertos"), (13, "13 acertos"),
          (12, "12 acertos"), (11, "11 acertos")]
        min_prize := 11 }
  | .megasena =>
      { max_number := 60, numbers_to_pick := 6
        prize_tiers := [(6, "Sena"), (5, "Quina"), (4, "Quadra")]
        min_prize := 4 }

/-- A stored draw record as the statistics code reads it: the parsed
`dezenas` list and (for dupla_sena) the parsed `dezenas_segundo_sorteio`
list (a record without that key reads as `[]` via `.get(..., [])`).
Date, accumulation and jackpot metadata are opaque pass-through and not
part of the embedded core. -/
structure DrawRec where
  dezenas : List ℕ
  dezenas_segundo : List ℕ := []
deriving DecidableEq

/-- One entry of the `hot_numbers` / `cold_numbers` lists produced by
`calculate_statistics`. -/
structure NumStat where
  number : ℕ
  frequency : ℕ
  percentage : ℚ
deriving DecidableEq

/-- The `Statistics` model of the source.  `delayed_numbers` entries carry
`draws_since` as `some d` for a seen number and `none` for the string
`"never"`.  `even_odd` is the source's `even_odd_ratio` dict as a pair
(even, odd); `range_distribution` is the (low, medium, high) triple. -/
structure Statistics where
  hot_numbers : List NumStat
  cold_numbers : List NumStat
  delayed_numbers : List (ℕ × Option ℕ)
  even_odd : ℚ × ℚ
  range_distribution : ℕ × ℕ × ℕ
  total_draws_analyzed : ℕ
deriving DecidableEq

/-- `all_numbers` of `calculate_statistics`: every record's first-draw numbers
followed (for dupla_sena) by its second-draw numbers, record by record, in
the exact append order of the source's loop. -/
def allNumbers (lt : LotteryType) (results : List DrawRec) : List ℕ :=
  results.flatMap fun rec =>
    rec.dezenas ++ (if lt = .dupla_sena then rec.dezenas_segundo else [])

/-- One first-draw number's effect on the `last_seen` dict.  The dict is keyed
only over `[1, max_number]`, so reading `last_seen[num]` for an out-of-range
`num` raises `KeyError`: embedded as `none`. -/
def lastSeenUpd (maxN idx : ℕ) (f : ℕ → ℤ) (d : ℕ) : Option (ℕ → ℤ) :=
  if 1 ≤ d ∧ d ≤ maxN then
    some (if f d = -1 then fun m => if m = d then (idx : ℤ) else f m else f)
  else none

/-- The `last_seen` table after the record loop of `calculate_statistics`
(first-draw numbers only; the dupla_sena second-draw loop does not touch
`last_seen`).  The source fills `all_numbers` in the same loop; the embedding
computes that list separately as `allNumbers` — observationally identical,
since on a `KeyError` (`none`) nothing of the partially built state is used. -/
def lastSeenScan (maxN : ℕ) (results : List DrawRec) : Option (ℕ → ℤ) :=
  results.enum.foldlM
    (fun f p => p.2.dezenas.foldlM (lastSeenUpd maxN p.1) f)
    (fun _ => -1)

/-- `Counter(l).most_common(k)`: (value, count) pairs sorted by count
descending — a stable sort over the counter's insertion (= first
occurrence) order — truncated to `k`. -/
def mostCommon (l : List ℕ) (k : ℕ) : List (ℕ × ℕ) :=
  (((pyDedupFirst l).map fun n => (n, l.count n)).insertionSort
    fun a b => b.2 ≤ a.2).take k

/-- Sort key of the delayed-number ranking: the last-seen index for a seen
number, the sentinel 999 for a never-seen one. -/
def delayedKey (p : ℕ × ℤ) : ℤ := if p.2 ≥ 0 then p.2 else 999

/-- The `hot_numbers` list of `calculate_statistics` (non-empty input):
top 15 of the frequency counter with percentage
`round(f / total_draws * 100, 1)`. -/
def statsHot (lt : LotteryType) (results : List DrawRec) : List NumStat :=
  (mostCommon (allNumbers lt results) 15).map fun p =>
    ⟨p.1, p.2, pyRound1 ((p.2 : ℚ) / results.length * 100)⟩

/-- The `cold_numbers` list: the full range's (number, frequency) pairs
stably sorted by frequency ascending, first 15. -/
def statsCold (lt : LotteryType) (results : List DrawRec) : List NumStat :=
  let all_numbers := allNumbers lt results
  let all_freq := (List.range' 1 (lotteryConfig lt).max_number).map
    fun i => (i, all_numbers.count i)
  ((all_freq.insertionSort fun a b : ℕ × ℕ => a.2 ≤ b.2).take 15).map fun p =>
    ⟨p.1, p.2, if results.length > 0 then
      pyRound1 ((p.2 : ℚ) / results.length * 100) else 0⟩

/-- The `delayed_numbers` list, from the scanned `last_seen` table: numbers
never seen or seen more than 5 positions back, stably sorted descending by
`delayedKey`, first 15, with `draws_since` read as `some`/`none`
(`"never"`). -/
def statsDelayed (maxN : ℕ) (last_seen : ℕ → ℤ) : List (ℕ × Option ℕ) :=
  let delayedPairs := ((List.range' 1 maxN).filter fun n =>
    last_seen n = -1 ∨ last_seen n > 5).map fun n => (n, last_seen n)
  ((delayedPairs.insertionSort fun a b =>
    delayedKey b ≤ delayedKey a).take 15).map fun p =>
    (p.1, if p.2 ≥ 0 then some p.2.toNat else none)

/-- The `even_odd_ratio` dict (as an (even, odd) pair of percentages). -/
def statsEvenOdd (lt : LotteryType) (results : List DrawRec) : ℚ × ℚ :=
  let all_numbers := allNumbers lt results
  let even_count := countEven all_numbers
  let odd_count := all_numbers.length - even_count
  let total := even_count + odd_count
  if total > 0 then
    (pyRound1 ((even_count : ℚ) / total * 100),
     pyRound1 ((odd_count : ℚ) / total * 100))
  else (0, 0)

/-- The `range_distribution` dict (as a (low, medium, high) triple). -/
def statsRange (lt : LotteryType) (results : List DrawRec) : ℕ × ℕ × ℕ :=
  let all_numbers := allNumbers lt results
  let third := (lotteryConfig lt).max_number / 3
  (all_numbers.countP fun n => n ≤ third,
   all_numbers.countP fun n => third < n ∧ n ≤ 2 * third,
   all_numbers.countP fun n => n > 2 * third)

/-- `calculate_statistics(results, lottery_type)`.  Returns `none` exactly
where the source raises (`KeyError` on an out-of-range first-draw number). -/
def calculate_statistics (results : List DrawRec) (lt : LotteryType) :
    Option Statistics :=
  if results.isEmpty then
    some { hot_numbers := [], cold_numbers := [], delayed_numbers := []
           even_odd := (0, 0), range_distribution := (0, 0, 0)
           total_draws_analyzed := 0 }
  else
    match lastSeenScan (lotteryConfig lt).max_number results with
    | none => none
    | some last_seen =>
      some { hot_numbers := statsHot lt results
             cold_numbers := statsCold lt results
             delayed_numbers :=
               statsDelayed (lotteryConfig lt).max_number last_seen
             even_odd := statsEvenOdd lt results
             range_distribution := statsRange lt results
             total_draws_analyzed := results.length }

/-- `nums` of one record in `analyze_winning_patterns`:
`sorted([int(d) for d in dezenas])`. -/
def recNums (rec : DrawRec) : List ℕ := rec.dezenas.insertionSort (· ≤ ·)

/-- The records kept by the `analyze_winning_patterns` loop: the first 50
records whose sorted number list has exactly `numbers_to_pick` entries
(others are skipped by `continue`).  Yields each kept record's `nums`. -/
def keptNums (n : ℕ) (results : List DrawRec) : List (List ℕ) :=
  (results.take 50).filterMap fun rec =>
    if (recNums rec).length = n then some (recNums rec) else none

/-- `patterns["even_odd_patterns"]`: per kept record, its count of even
numbers. -/
def evenOddPatterns (n : ℕ) (results : List DrawRec) : List ℕ :=
  (keptNums n results).map fun nums => nums.countP fun x => x % 2 = 0

/-- `patterns["sum_patterns"]`: per kept record, the numeric sum. -/
def sumPatterns (n : ℕ) (results : List DrawRec) : List ℕ :=
  (keptNums n results).map List.sum

/-- `patterns["range_patterns"]`: per kept record, the (low, med, high)
counts for the thirds of `[1, max_number]`. -/
def rangePatterns (maxN n : ℕ) (results : List DrawRec) : List (ℕ × ℕ × ℕ) :=
  (keptNums n results).map fun nums =>
    (nums.countP fun x => x ≤ maxN / 3,
     nums.countP fun x => maxN / 3 < x ∧ x ≤ 2 * (maxN / 3),
     nums.countP fun x => x > 2 * (maxN / 3))

/-- `patterns["consecutive_patterns"]`: per kept record, the number of
adjacent sorted pairs differing by exactly 1. -/
def consecutivePatterns (n : ℕ) (results : List DrawRec) : List ℕ :=
  (keptNums n results).map fun nums =>
    (nums.zip nums.tail).countP fun p => p.2 = p.1 + 1

/-- `patterns["repeat_from_last"]`: per kept record after the first, the
count of its numbers present in the previous kept record (`prev_dezenas`
is only advanced for kept records, so the pairs run over `keptNums`). -/
def repeatFromLast (n : ℕ) (results : List DrawRec) : List ℕ :=
  List.zipWith (fun prev cur => cur.countP fun x => x ∈ prev)
    (keptNums n results) (keptNums n results).tail

/-- Arithmetic mean of a list of naturals, as a rational. -/
def listMean (l : List ℕ) : ℚ := (l.sum : ℚ) / l.length

/-- The `analysis` dict built by `analyze_winning_patterns`: each key is
present exactly when the corresponding pattern list is non-empty, embedded
as an optional field (the source's `decade_patterns` are collected but never
read into `analysis`, so they have no embedded counterpart). -/
structure PatternAnalysis where
  optimal_even : Option ℕ := none
  optimal_odd : Option ℕ := none
  optimal_sum_min : Option ℤ := none
  optimal_sum_max : Option ℤ := none
  avg_consecutive : Option ℚ := none
  optimal_range : Option (ℕ × ℕ × ℕ) := none
  avg_repeats : Option ℚ := none
deriving DecidableEq

/-- `analyze_winning_patterns(results, lottery_type)`. -/
def analyze_winning_patterns (results : List DrawRec) (lt : LotteryType) :
    PatternAnalysis :=
  let maxN := (lotteryConfig lt).max_number
  let n := (lotteryConfig lt).numbers_to_pick
  let eo := evenOddPatterns n results
  let sums := sumPatterns n results
  let cons := consecutivePatterns n results
  let ranges := rangePatterns maxN n results
  let reps := repeatFromLast n results
  { optimal_even :=
      if eo ≠ [] then some (pyRoundInt (listMean eo)).toNat else none
    optimal_odd :=
      if eo ≠ [] then some (n - (pyRoundInt (listMean eo)).toNat) else none
    optimal_sum_min :=
      if sums ≠ [] then some (pyInt (listMean sums * (17 / 20))) else none
    optimal_sum_max :=
      if sums ≠ [] then some (pyInt (listMean sums * (23 / 20))) else none
    avg_consecutive := if cons ≠ [] then some (listMean cons) else none
    optimal_range :=
      if ranges ≠ [] then
        some ((pyRoundInt (listMean (ranges.map fun p => p.1))).toNat,
              (pyRoundInt (listMean (ranges.map fun p => p.2.1))).toNat,
              (pyRoundInt (listMean (ranges.map fun p => p.2.2))).toNat)
      else none
    avg_repeats := if reps ≠ [] then some (listMean reps) else none }

/-- The closure `validate_bet(nums)` of `generate_smart_bet`, parameterized by
the enclosing scope's `numbers_to_pick`, `sum_min`, `sum_max` and
`optimal_even`.  The sum window actually enforced is
`[sum_min * 0.8, sum_max * 1.2]`, applied only when both targets are
positive; the even-count tolerance is 2. -/
def validate_bet (ntp : ℕ) (sum_min sum_max : ℤ) (optimal_even : ℕ)
    (nums : List ℕ) : Bool :=
  if nums.length ≠ ntp then false
  else
    let nums := nums.insertionSort (· ≤ ·)
    let total : ℚ := sumQ nums
    if (sum_min > 0 ∧ sum_max > 0) ∧
        (total < (sum_min : ℚ) * (4 / 5) ∨ total > (sum_max : ℚ) * (6 / 5)) then
      false
    else
      let even : ℤ := (countEven nums : ℕ)
      if |even - (optimal_even : ℤ)| > 2 then false else true

/-- `range(1, max_number + 1)`. -/
def fullRange (maxN : ℕ) : List ℕ := List.range' 1 maxN

/-- `low_range = list(range(1, third + 1))` with `third = max_number // 3`. -/
def lowRange (maxN : ℕ) : List ℕ := List.range' 1 (maxN / 3)

/-- `mid_range = list(range(third + 1, 2 * third + 1))`. -/
def midRange (maxN : ℕ) : List ℕ := List.range' (maxN / 3 + 1) (maxN / 3)

/-- `high_range = list(range(2 * third + 1, max_number + 1))`. -/
def highRange (maxN : ℕ) : List ℕ :=
  List.range' (2 * (maxN / 3) + 1) (maxN - 2 * (maxN / 3))

/-- The "fill remaining if needed" while-loop of `generate_with_patterns`
(hot-preferring).  The source loops until `len(result) = numbers_to_pick`
or no number is left; each pass appends one fresh number, so fuel
`numbers_to_pick` is enough for every reachable start state. -/
def gwpFill (maxN n : ℕ) (hot_weight : List ℕ) :
    ℕ → List ℕ → Rng → Option (List ℕ × Rng)
  | 0, result, r => some (result, r)
  | fuel + 1, result, r =>
    if result.length < n then
      let available := (fullRange maxN).filter fun x => x ∉ result
      if available.isEmpty then some (result, r)
      else
        let hot_available := hot_weight.filter fun x => x ∈ available
        if hot_available.isEmpty then
          match pyChoice available r with
          | none => none
          | some (c, r') => gwpFill maxN n hot_weight fuel (result ++ [c]) r'
        else
          match pyChoice hot_available r with
          | none => none
          | some (c, r') => gwpFill maxN n hot_weight fuel (result ++ [c]) r'
    else some (result, r)

/-- The even/odd balancing loop of `generate_with_patterns`: up to 10
attempts (the fuel is exactly the source's `attempts` budget) replacing a
surplus-parity member by a hot-preferring pick of the needed parity. -/
def balanceLoop (maxN : ℕ) (optimal_even : ℕ) (hot_weight : List ℕ) :
    ℕ → List ℕ → Rng → Option (List ℕ × Rng)
  | 0, result, r => some (result, r)
  | fuel + 1, result, r =>
    let even_count := result.countP fun x => x % 2 = 0
    if |(even_count : ℤ) - (optimal_even : ℤ)| > 1 then
      if even_count > optimal_even then
        let evens := result.filter fun x => x % 2 = 0
        let odds_available := (fullRange maxN).filter fun x => x % 2 = 1 ∧ x ∉ result
        if evens.isEmpty ∨ odds_available.isEmpty then
          balanceLoop maxN optimal_even hot_weight fuel result r
        else
          match pyChoice evens r with
          | none => none
          | some (e, r1) =>
            let result1 := result.erase e
            let hot_odds := odds_available.filter fun x => x ∈ hot_weight
            match pyChoice (if hot_odds.isEmpty then odds_available else hot_odds) r1 with
            | none => none
            | some (c, r2) =>
              balanceLoop maxN optimal_even hot_weight fuel (result1 ++ [c]) r2
      else
        let odds := result.filter fun x => x % 2 = 1
        let evens_available := (fullRange maxN).filter fun x => x % 2 = 0 ∧ x ∉ result
        if odds.isEmpty ∨ evens_available.isEmpty then
          balanceLoop maxN optimal_even hot_weight fuel result r
        else
          match pyChoice odds r with
          | none => none
          | some (o, r1) =>
            let result1 := result.erase o
            let hot_evens := evens_available.filter fun x => x ∈ hot_weight
            match pyChoice (if hot_evens.isEmpty then evens_available else hot_evens) r1 with
            | none => none
            | some (c, r2) =>
              balanceLoop maxN optimal_even hot_weight fuel (result1 ++ [c]) r2
    else some (result, r)

/-- Low-third selection of `generate_with_patterns`: sample up to
`target_low` from the hot-preferring low pool (when non-empty and the
target is positive). -/
def gwpLowStep (maxN : ℕ) (hot_weight : List ℕ) (target_low : ℕ) (r : Rng) :
    Option (List ℕ × Rng) :=
  let low_hot := hot_weight.filter fun x => x ∈ lowRange maxN
  let low_other := (lowRange maxN).filter fun x => x ∉ low_hot
  let low_pool := low_hot ++ low_other
  if ¬low_pool.isEmpty ∧ target_low > 0 then
    pySample low_pool (min target_low low_pool.length) r
  else pure ([], r)

/-- Middle-third selection: extend `result` by a sample from the
hot-preferring mid pool minus `result`. -/
def gwpMidStep (maxN : ℕ) (hot_weight : List ℕ) (target_mid : ℕ)
    (result : List ℕ) (r : Rng) : Option (List ℕ × Rng) :=
  let mid_hot := hot_weight.filter fun x => x ∈ midRange maxN
  let mid_other := (midRange maxN).filter fun x => x ∉ mid_hot
  let mid_pool := mid_hot ++ mid_other
  if ¬mid_pool.isEmpty ∧ target_mid > 0 then do
    let available := mid_pool.filter fun x => x ∉ result
    let (s, r') ← pySample available (min target_mid available.length) r
    pure (result ++ s, r')
  else pure (result, r)

/-- High-third selection, as `gwpMidStep`. -/
def gwpHighStep (maxN : ℕ) (hot_weight : List ℕ) (target_high : ℕ)
    (result : List ℕ) (r : Rng) : Option (List ℕ × Rng) :=
  let high_hot := hot_weight.filter fun x => x ∈ highRange maxN
  let high_other := (highRange maxN).filter fun x => x ∉ high_hot
  let high_pool := high_hot ++ high_other
  if ¬high_pool.isEmpty ∧ target_high > 0 then do
    let available := high_pool.filter fun x => x ∉ result
    let (s, r') ← pySample available (min target_high available.length) r
    pure (result ++ s, r')
  else pure (result, r)

/-- The `generate_with_patterns` closure of `generate_smart_bet`: per-third
hot-preferring sampling, fill, sort/truncate, even/odd balancing. -/
def generate_with_patterns (maxN n : ℕ) (hot_nums : List ℕ)
    (optimal_range : Option (ℕ × ℕ × ℕ)) (optimal_even : ℕ) (r : Rng) :
    Option (List ℕ × Rng) := do
  let hot_weight := hot_nums.take 10
  let t := optimal_range.getD (n / 3, n / 3, n / 3)
  let remainder : ℤ := (n : ℤ) - t.1 - t.2.1 - t.2.2
  let target_mid := if remainder > 0 then t.2.1 + remainder.toNat else t.2.1
  let (result, r) ← gwpLowStep maxN hot_weight t.1 r
  let (result, r) ← gwpMidStep maxN hot_weight target_mid result r
  let (result, r) ← gwpHighStep maxN hot_weight t.2.2 result r
  let (result, r) ← gwpFill maxN n hot_weight n result r
  let result := (result.insertionSort (· ≤ ·)).take n
  let (result, r) ← balanceLoop maxN optimal_even hot_weight 10 result r
  pure ((result.insertionSort (· ≤ ·)).take n, r)

/-- The `smart` strategy's candidate loop: 50 pattern-based candidates,
keeping the best validated one by top-10-hot overlap score. -/
def smartLoop (maxN n : ℕ) (hot_nums : List ℕ)
    (optimal_range : Option (ℕ × ℕ × ℕ)) (optimal_even : ℕ)
    (sum_min sum_max : ℤ) :
    ℕ → Option (List ℕ) → ℤ → Rng → Option (Option (List ℕ) × Rng)
  | 0, best, _, r => some (best, r)
  | fuel + 1, best, best_score, r => do
    let (candidate, r1) ←
      generate_with_patterns maxN n hot_nums optimal_range optimal_even r
    if validate_bet n sum_min sum_max optimal_even candidate then
      let score : ℤ := (candidate.countP fun x => x ∈ hot_nums.take 10 : ℕ)
      if score > best_score then
        smartLoop maxN n hot_nums optimal_range optimal_even sum_min sum_max
          fuel (some candidate) score r1
      else
        smartLoop maxN n hot_nums optimal_range optimal_even sum_min sum_max
          fuel best best_score r1
    else
      smartLoop maxN n hot_nums optimal_range optimal_even sum_min sum_max
        fuel best best_score r1

/-- The `hot` strategy's retry loop: up to 20 validated samples from the
top-15 hot numbers unioned with a random quarter of the range.  Returns the
source's `selected` — still `[]` when no candidate validated. -/
def hotLoop (maxN n : ℕ) (hot_nums : List ℕ) (sum_min sum_max : ℤ)
    (optimal_even : ℕ) : ℕ → Rng → Option (List ℕ × Rng)
  | 0, r => some ([], r)
  | fuel + 1, r => do
    let (samp, r1) ← pySample (fullRange maxN) (maxN / 4) r
    let pool := pyDedupFirst (hot_nums.take 15 ++ samp)
    let (candidate, r2) ← pySample pool (min n pool.length) r1
    if validate_bet n sum_min sum_max optimal_even candidate then
      some (candidate, r2)
    else hotLoop maxN n hot_nums sum_min sum_max optimal_even fuel r2

/-- The `cold` strategy's retry loop over its fixed cold/delayed pool. -/
def coldLoop (pool : List ℕ) (n : ℕ) (sum_min sum_max : ℤ)
    (optimal_even : ℕ) : ℕ → Rng → Option (List ℕ × Rng)
  | 0, r => some ([], r)
  | fuel + 1, r => do
    let (candidate, r1) ←
      pySample (pool.take (max 30 (n + 10))) (min n pool.length) r
    if validate_bet n sum_min sum_max optimal_even candidate then
      some (candidate, r1)
    else coldLoop pool n sum_min sum_max optimal_even fuel r1

/-- The `balanced` strategy's retry loop: up to 30 validated pattern-based
candidates. -/
def balancedLoop (maxN n : ℕ) (hot_nums : List ℕ)
    (optimal_range : Option (ℕ × ℕ × ℕ)) (optimal_even : ℕ)
    (sum_min sum_max : ℤ) : ℕ → Rng → Option (List ℕ × Rng)
  | 0, r => some ([], r)
  | fuel + 1, r => do
    let (candidate, r1) ←
      generate_with_patterns maxN n hot_nums optimal_range optimal_even r
    if validate_bet n sum_min sum_max optimal_even candidate then
      some (candidate, r1)
    else
      balancedLoop maxN n hot_nums optimal_range optimal_even
        sum_min sum_max fuel r1

/-- The `coverage` strategy's unguarded fill while-loop
(`candidate.append(random.choice(available))`): `none` would mean the
`IndexError` of choosing from an empty `available`.  Each pass appends one
fresh number, so fuel `numbers_to_pick` covers every reachable start. -/
def covFill (maxN n : ℕ) : ℕ → List ℕ → Rng → Option (List ℕ × Rng)
  | 0, c, r => some (c, r)
  | fuel + 1, c, r =>
    if c.length < n then do
      let available := (fullRange maxN).filter fun x => x ∉ c
      let (x, r') ← pyChoice available r
      covFill maxN n fuel (c ++ [x]) r'
    else some (c, r)

/-- One third's sampling in the `coverage` strategy (guarded on a positive
pick count). -/
def covPickStep (seg : List ℕ) (k : ℕ) (r : Rng) : Option (List ℕ × Rng) :=
  if k > 0 then pySample seg k r else pure ([], r)

/-- The high third's sampling in the `coverage` strategy: its (possibly
negative) pick count is also guarded against exceeding the third. -/
def covHighStep (maxN : ℕ) (high_picks : ℤ) (r : Rng) :
    Option (List ℕ × Rng) :=
  if high_picks > 0 ∧ ((highRange maxN).length : ℤ) ≥ high_picks then
    pySample (highRange maxN) high_picks.toNat r
  else pure ([], r)

/-- The `coverage` strategy's retry loop: per-third targeted sampling plus
uniform fill, up to 20 validated attempts. -/
def covLoop (maxN n : ℕ) (optimal_range : Option (ℕ × ℕ × ℕ))
    (sum_min sum_max : ℤ) (optimal_even : ℕ) :
    ℕ → Rng → Option (List ℕ × Rng)
  | 0, r => some ([], r)
  | fuel + 1, r => do
    let low_picks := min
      (match optimal_range with | some t => t.1 | none => n / 3)
      (lowRange maxN).length
    let mid_picks := min
      (match optimal_range with | some t => t.2.1 | none => n / 3)
      (midRange maxN).length
    let high_picks : ℤ := (n : ℤ) - low_picks - mid_picks
    let (c1, r1) ← covPickStep (lowRange maxN) low_picks r
    let (c2, r2) ← covPickStep (midRange maxN) mid_picks r1
    let (c3, r3) ← covHighStep maxN high_picks r2
    let (candidate, r4) ← covFill maxN n n (c1 ++ c2 ++ c3) r3
    if validate_bet n sum_min sum_max optimal_even candidate then
      some (candidate, r4)
    else covLoop maxN n optimal_range sum_min sum_max optimal_even fuel r4

/-- The final "fill if we don't have enough" while-loop of
`generate_smart_bet` (uniform, with an explicit `break` when nothing is
left).  Fuel `numbers_to_pick` again covers every reachable start. -/
def postFill (maxN n : ℕ) : ℕ → List ℕ → Rng → Option (List ℕ × Rng)
  | 0, sel, r => some (sel, r)
  | fuel + 1, sel, r =>
    if sel.length < n then
      let available := (fullRange maxN).filter fun x => x ∉ sel
      if available.isEmpty then some (sel, r)
      else do
        let (x, r') ← pyChoice available r
        postFill maxN n fuel (sel ++ [x]) r'
    else some (sel, r)

/-- The common post-processing of `generate_smart_bet`: deduplicate, sort
ascending, truncate to `numbers_to_pick`, fill any shortfall uniformly from
the unused numbers, and sort the final pick. -/
def finalizeBet (maxN n : ℕ) (selected : List ℕ) (r : Rng) :
    Option (List ℕ × Rng) := do
  let sel := ((pyDedupFirst selected).insertionSort (· ≤ ·)).take n
  let (sel2, r2) ← postFill maxN n n sel r
  pure (sel2.insertionSort (· ≤ ·), r2)

/-- The `smart` strategy branch: best validated candidate of 50, else one
more pattern-based candidate. -/
def smartBranch (maxN n : ℕ) (hot_nums : List ℕ)
    (optimal_range : Option (ℕ × ℕ × ℕ)) (optimal_even : ℕ)
    (sum_min sum_max : ℤ) (r : Rng) : Option (List ℕ × Rng) := do
  let (best, r') ← smartLoop maxN n hot_nums optimal_range optimal_even
    sum_min sum_max 50 none (-1) r
  match best with
  | some b => pure (b, r')
  | none =>
    generate_with_patterns maxN n hot_nums optimal_range optimal_even r'

/-- The `hot` strategy branch: retry loop, then the top-20-hot (or full
range) uniform fallback. -/
def hotBranch (maxN n : ℕ) (hot_nums : List ℕ) (sum_min sum_max : ℤ)
    (optimal_even : ℕ) (r : Rng) : Option (List ℕ × Rng) := do
  let (sel, r') ← hotLoop maxN n hot_nums sum_min sum_max optimal_even 20 r
  if sel.isEmpty then
    pySample (if hot_nums.length ≥ 20 then hot_nums.take 20
      else fullRange maxN) n r'
  else pure (sel, r')

/-- The `cold` strategy branch: cold ∪ delayed pool (padded with the rest
of the range when short), retry loop, unvalidated fallback sample. -/
def coldBranch (maxN n : ℕ) (cold_nums delayed_nums : List ℕ)
    (sum_min sum_max : ℤ) (optimal_even : ℕ) (r : Rng) :
    Option (List ℕ × Rng) := do
  let pool0 := pyDedupFirst (cold_nums ++ delayed_nums)
  let pool := if pool0.length < n then
      pool0 ++ (fullRange maxN).filter fun x => x ∉ pool0
    else pool0
  let (sel, r') ← coldLoop pool n sum_min sum_max optimal_even 20 r
  if sel.isEmpty then pySample pool (min n pool.length) r'
  else pure (sel, r')

/-- The `balanced` strategy branch: retry loop, last-candidate fallback. -/
def balancedBranch (maxN n : ℕ) (hot_nums : List ℕ)
    (optimal_range : Option (ℕ × ℕ × ℕ)) (optimal_even : ℕ)
    (sum_min sum_max : ℤ) (r : Rng) : Option (List ℕ × Rng) := do
  let (sel, r') ← balancedLoop maxN n hot_nums optimal_range optimal_even
    sum_min sum_max 30 r
  if sel.isEmpty then
    generate_with_patterns maxN n hot_nums optimal_range optimal_even r'
  else pure (sel, r')

/-- The `coverage` strategy branch: retry loop, pattern-based fallback. -/
def covBranch (maxN n : ℕ) (hot_nums : List ℕ)
    (optimal_range : Option (ℕ × ℕ × ℕ)) (optimal_even : ℕ)
    (sum_min sum_max : ℤ) (r : Rng) : Option (List ℕ × Rng) := do
  let (sel, r') ← covLoop maxN n optimal_range sum_min sum_max
    optimal_even 20 r
  if sel.isEmpty then
    generate_with_patterns maxN n hot_nums optimal_range optimal_even r'
  else pure (sel, r')

/-- `generate_smart_bet(statistics, lottery_type, strategy,
pattern_analysis)`, reduced to its `numbers` computation.  The surrounding
`GeneratedBet` construction (uuid, timestamp, the human-readable
`explanation` string) is presentational and not embedded.  `none` marks the
executions on which CPython would raise. -/
def generate_smart_bet_numbers (stats : Statistics) (lt : LotteryType)
    (strategy : String) (pa : Option PatternAnalysis) (r : Rng) :
    Option (List ℕ × Rng) :=
  let cfg := lotteryConfig lt
  let maxN := cfg.max_number
  let n := cfg.numbers_to_pick
  let hot_nums := stats.hot_numbers.map (·.number)
  let cold_nums := stats.cold_numbers.map (·.number)
  let delayed_nums := stats.delayed_numbers.filterMap fun d =>
    if d.2.isSome then some d.1 else none
  let optimal_even := match pa with
    | some p => p.optimal_even.getD (n / 2)
    | none => n / 2
  let optimal_range : Option (ℕ × ℕ × ℕ) := match pa with
    | some p => some (p.optimal_range.getD (n / 3, n / 3, n / 3))
    | none => none
  let sum_min : ℤ := match pa with
    | some p => p.optimal_sum_min.getD 0
    | none => 0
  let sum_max : ℤ := match pa with
    | some p => p.optimal_sum_max.getD (maxN * n)
    | none => maxN * n
  let branch : Option (List ℕ × Rng) :=
    if strategy = "smart" then
      smartBranch maxN n hot_nums optimal_range optimal_even sum_min sum_max r
    else if strategy = "hot" then
      hotBranch maxN n hot_nums sum_min sum_max optimal_even r
    else if strategy = "cold" then
      coldBranch maxN n cold_nums delayed_nums sum_min sum_max optimal_even r
    else if strategy = "balanced" then
      balancedBranch maxN n hot_nums optimal_range optimal_even
        sum_min sum_max r
    else if strategy = "coverage" then
      covBranch maxN n hot_nums optimal_range optimal_even sum_min sum_max r
    else pure ([], r)
  branch.bind fun p => finalizeBet maxN n p.1 p.2

/-- The string name of a lottery type (the `lottery_type` route/path value). -/
def ltName : LotteryType → String
  | .quina => "quina"
  | .dupla_sena => "dupla_sena"
  | .lotofacil => "lotofacil"
  | .megasena => "megasena"

/-- `get_bet_hash(lottery_type, numbers)`: the source takes the MD5 digest of
`f"{lottery_type}:{','.join(map(str, sorted(numbers)))}"`.  MD5 is a fixed
deterministic function of that key, so the embedding keeps the key itself:
every equality of keys the claims rely on transports to equality of
digests. -/
def get_bet_hash (lt : LotteryType) (numbers : List ℕ) : String :=
  ltName lt ++ ":" ++
    String.intercalate "," ((numbers.insertionSort (· ≤ ·)).map toString)

/-- A document of the `bets` collection as `save_bet` writes it (uuid,
timestamps and the free-text fields are opaque pass-through). -/
structure BetDoc where
  lottery_type : LotteryType
  numbers : List ℕ
  hash : String
  checked : Bool
deriving DecidableEq

/-- A bet submission (`BetCreate`); the route rejects unknown lottery-type
strings before any store access, so the embedded type is already valid. -/
structure BetCreate where
  lottery_type : LotteryType
  numbers : List ℕ
deriving DecidableEq

/-- Outcome of `POST /api/bets`. -/
inductive SaveOutcome
  | conflict
  | ok (store : List BetDoc)
deriving DecidableEq

/-- `save_bet(bet)` against the current `bets` collection: duplicate-hash
check first (HTTP 409, no insertion), else append the new document with the
sorted numbers and its hash. -/
def save_bet (bet : BetCreate) (store : List BetDoc) : SaveOutcome :=
  let bet_hash := get_bet_hash bet.lottery_type bet.numbers
  if store.any fun b => b.hash = bet_hash then .conflict
  else .ok (store ++ [{ lottery_type := bet.lottery_type
                        numbers := bet.numbers.insertionSort (· ≤ ·)
                        hash := bet_hash
                        checked := false }])

/-- What `check_bet` reports about one bet against one draw.  The source
calls the first field `matches` (a Lean keyword), here `matched_numbers`;
the `prize_value` lookup reads the upstream payload's prize table and is
outside the embedded core. -/
structure CheckOutcome where
  matched_numbers : List ℕ
  match_count : ℕ
  prize_tier : Option String
  is_winner : Bool
deriving DecidableEq

/-- `prize_tiers.get(match_count, f"{match_count} acertos")`. -/
def tierLabel (cfg : Config) (k : ℕ) : String :=
  match cfg.prize_tiers.lookup k with
  | some s => s
  | none => toString k ++ " acertos"

/-- The match-computation core of `check_bet` (source lines 893–921): matches
against the first draw, prize tier when `match_count ≥ min_prize`, and the
dupla_sena second-draw override — taken only when the second draw's matches
reach `min_prize` AND beat the first draw's count, tagging the tier with
" (2º sorteio)". -/
def checkBetCore (lt : LotteryType) (bet_numbers drawn drawn_second : List ℕ) :
    CheckOutcome :=
  let cfg := lotteryConfig lt
  let matchesFirst := bet_numbers.filter fun x => x ∈ drawn
  let match_count := matchesFirst.length
  let matches_second :=
    if lt = .dupla_sena then bet_numbers.filter fun x => x ∈ drawn_second
    else []
  let is_winner := match_count ≥ cfg.min_prize
  let prize_tier : Option String :=
    if match_count ≥ cfg.min_prize then some (tierLabel cfg match_count)
    else none
  if lt = .dupla_sena ∧ matches_second.length ≥ cfg.min_prize ∧
      matches_second.length > match_count then
    { matched_numbers := matches_second
      match_count := matches_second.length
      prize_tier := some (tierLabel cfg matches_second.length ++ " (2º sorteio)")
      is_winner := true }
  else
    { matched_numbers := matchesFirst, match_count := match_count
      prize_tier := prize_tier, is_winner := is_winner }

/-- `1 ≤ x ≤ max_number`. -/
def inRange (maxN x : ℕ) : Prop := 1 ≤ x ∧ x ≤ maxN

instance (maxN x : ℕ) : Decidable (inRange maxN x) := by
  unfold inRange; infer_instance

/-- A well-shaped generated combination for a game configuration: exactly
`numbers_to_pick` distinct integers in `[1, max_number]`, sorted
ascending. -/
def validShape (cfg : Config) (nums : List ℕ) : Prop :=
  nums.length = cfg.numbers_to_pick ∧ nums.Nodup ∧
    nums.Sorted (· ≤ ·) ∧ ∀ x ∈ nums, inRange cfg.max_number x

/-- The validation predicate exactly as claim C2 words it: size equals
`numbers_to_pick`, numeric sum within `[sum_min*0.8, sum_max*1.15]` (the
sum check skipped when no sum target is available), even-count within 2 of
the profile's optimal even-count.  Stated from the claim, to be compared
with the source's `validate_bet`. -/
def validate_bet_claim (ntp : ℕ) (sum_min sum_max : ℤ) (optimal_even : ℕ)
    (nums : List ℕ) : Prop :=
  nums.length = ntp ∧
  (¬(sum_min > 0 ∧ sum_max > 0) ∨
    ((sum_min : ℚ) * (4 / 5) ≤ sumQ nums ∧
     sumQ nums ≤ (sum_max : ℚ) * (23 / 20))) ∧
  |((countEven nums : ℕ) : ℤ) - (optimal_even : ℤ)| ≤ 2

instance (ntp : ℕ) (smin smax : ℤ) (oe : ℕ) (nums : List ℕ) :
    Decidable (validate_bet_claim ntp smin smax oe nums) := by
  unfold validate_bet_claim; infer_instance

/-- Claim C6's ranking property on a delayed-numbers list: every
"never seen" entry (`draws_since = none`) is placed strictly above every
seen entry. -/
def neverAboveStale (l : List (ℕ × Option ℕ)) : Prop :=
  ∀ i < l.length, ∀ j < l.length,
    (l.getD i (0, none)).2 ≠ none → (l.getD j (0, none)).2 = none → j < i

instance (l : List (ℕ × Option ℕ)) : Decidable (neverAboveStale l) := by
  unfold neverAboveStale; infer_instance

/-- Success-and-in-range for an `Option` computation returning a candidate
list with the entropy state: some result whose numbers all lie in
`range(1, max_number + 1)`. -/
def OkR (maxN : ℕ) (m : Option (List ℕ × Rng)) : Prop :=
  ∃ out r', m = some (out, r') ∧ ∀ x ∈ out, x ∈ fullRange maxN

/-- Success-and-in-range for the `smart` loop's state: some best-so-far
(possibly absent) whose numbers all lie in range. -/
def OkRO (maxN : ℕ) (m : Option (Option (List ℕ) × Rng)) : Prop :=
  ∃ b r', m = some (b, r') ∧ ∀ l, b = some l → ∀ x ∈ l, x ∈ fullRange maxN

/-- C2 counterexample: at `numbers_to_pick = 5`, `sum_min = 100`,
`sum_max = 200`, `optimal_even = 2`, the candidate `[40, 45, 48, 50, 52]`
(sum 235) is accepted by the source's `validate_bet`, but its sum exceeds
`sum_max * 1.15 = 230`, so the predicate claim C2 describes rejects it. -/
theorem C2_counterexample :
    validate_bet 5 100 200 2 [40, 45, 48, 50, 52] = true ∧
    ¬ validate_bet_claim 5 100 200 2 [40, 45, 48, 50, 52] := by
  with_unfolding_all decide

/-- C2 (amended): `validate_bet(numbers)` returns true iff the candidate's
size equals `numbers_to_pick`, its numeric sum lies within
`[sum_min * 0.8, sum_max * 1.2]` (the sum check skipped when no positive
sum target is available), and its even-count differs from the profile's
optimal even-count by at most 2. -/
theorem C2_validate_bet (ntp : ℕ) (smin smax : ℤ) (oe : ℕ) (nums : List ℕ) :
    validate_bet ntp smin smax oe nums = true ↔
      (nums.length = ntp ∧
       (¬(smin > 0 ∧ smax > 0) ∨
         ((smin : ℚ) * (4 / 5) ≤ sumQ nums ∧
          sumQ nums ≤ (smax : ℚ) * (6 / 5))) ∧
       |((countEven nums : ℕ) : ℤ) - (oe : ℤ)| ≤ 2) := by
  have hperm := List.perm_insertionSort (· ≤ ·) nums
  have hsum : sumQ (nums.insertionSort (· ≤ ·)) = sumQ nums :=
    (hperm.map _).sum_eq
  have hcnt : countEven (nums.insertionSort (· ≤ ·)) = countEven nums :=
    hperm.countP_eq _
  simp only [validate_bet, hsum, hcnt]
  split_ifs with h1 h2 h3
  · simp only [Bool.false_eq_true, false_iff]
    intro h; exact h1 h.1
  · simp only [Bool.false_eq_true, false_iff]
    intro h
    rcases h.2.1 with hno | ⟨hlo, hhi⟩
    · exact hno h2.1
    · rcases h2.2 with hlt | hgt
      · linarith
      · linarith
  · simp only [Bool.false_eq_true, false_iff]
    intro h
    exact absurd h.2.2 (not_le.mpr h3)
  · simp only [true_iff]
    refine ⟨not_not.mp h1, ?_, not_lt.mp h3⟩
    by_cases hp : smin > 0 ∧ smax > 0
    · right
      constructor
      · by_contra hlt
        exact h2 ⟨hp, Or.inl (not_le.mp hlt)⟩
      · by_contra hgt
        exact h2 ⟨hp, Or.inr (not_le.mp hgt)⟩
    · left; exact hp

/-- C3 counterexample: dupla_sena bet `[1..6]` against a draw whose first set
matches 1 number and whose second set matches 2.  The second set matches
strictly more, yet `check_bet` reports `match_count = 1`, because the
second-draw preference is only taken when the second set's matches also
reach `min_prize` (3 for dupla_sena). -/
theorem C3_counterexample :
    (([1, 2, 3, 4, 5, 6] : List ℕ).filter
        fun x => x ∈ ([1, 2, 20, 21, 22, 23] : List ℕ)).length = 2 ∧
    (([1, 2, 3, 4, 5, 6] : List ℕ).filter
        fun x => x ∈ ([1, 10, 11, 12, 13, 14] : List ℕ)).length = 1 ∧
    (checkBetCore .dupla_sena [1, 2, 3, 4, 5, 6]
        [1, 10, 11, 12, 13, 14] [1, 2, 20, 21, 22, 23]).match_count ≠ 2 := by
  decide

/-- C3 (amended): for the dual-draw game, when the second draw set matches
strictly more numbers than the first AND that second count reaches the
game's `min_prize`, the reported result switches to the second set: its
match list and count are reported, the bet wins, and the prize tier is
tagged with " (2º sorteio)". -/
theorem C3_dupla_second_draw (bet drawn drawn2 : List ℕ)
    (hgt : (bet.filter fun x => x ∈ drawn2).length >
      (bet.filter fun x => x ∈ drawn).length)
    (hmin : (bet.filter fun x => x ∈ drawn2).length ≥
      (lotteryConfig .dupla_sena).min_prize) :
    (checkBetCore .dupla_sena bet drawn drawn2).match_count =
      (bet.filter fun x => x ∈ drawn2).length ∧
    (checkBetCore .dupla_sena bet drawn drawn2).matched_numbers =
      bet.filter (fun x => x ∈ drawn2) ∧
    (checkBetCore .dupla_sena bet drawn drawn2).is_winner = true ∧
    (checkBetCore .dupla_sena bet drawn drawn2).prize_tier =
      some (tierLabel (lotteryConfig .dupla_sena)
        (bet.filter fun x => x ∈ drawn2).length ++ " (2º sorteio)") := by
  unfold checkBetCore
  rw [if_pos ⟨rfl, by simpa using hmin, by simpa using hgt⟩]
  simp

/-- Witness for `C3_dupla_second_draw` at a concrete winning second draw. -/
theorem C3_witness :
    (checkBetCore .dupla_sena [1, 2, 3, 4, 5, 6]
        [10, 11, 12, 13, 14, 15] [1, 2, 3, 20, 21, 22]).match_count =
      (([1, 2, 3, 4, 5, 6] : List ℕ).filter
        fun x => x ∈ ([1, 2, 3, 20, 21, 22] : List ℕ)).length ∧
    (checkBetCore .dupla_sena [1, 2, 3, 4, 5, 6]
        [10, 11, 12, 13, 14, 15] [1, 2, 3, 20, 21, 22]).matched_numbers =
      ([1, 2, 3, 4, 5, 6] : List ℕ).filter
        (fun x => x ∈ ([1, 2, 3, 20, 21, 22] : List ℕ)) ∧
    (checkBetCore .dupla_sena [1, 2, 3, 4, 5, 6]
        [10, 11, 12, 13, 14, 15] [1, 2, 3, 20, 21, 22]).is_winner = true ∧
    (checkBetCore .dupla_sena [1, 2, 3, 4, 5, 6]
        [10, 11, 12, 13, 14, 15] [1, 2, 3, 20, 21, 22]).prize_tier =
      some (tierLabel (lotteryConfig .dupla_sena)
        (([1, 2, 3, 4, 5, 6] : List ℕ).filter
          fun x => x ∈ ([1, 2, 3, 20, 21, 22] : List ℕ)).length ++
        " (2º sorteio)") :=
  C3_dupla_second_draw [1, 2, 3, 4, 5, 6] [10, 11, 12, 13, 14, 15]
    [1, 2, 3, 20, 21, 22] (by decide) (by decide)

/-- The content hash only depends on the game and the *set* of numbers:
permuted numbers produce the same key. -/
theorem get_bet_hash_perm (lt : LotteryType) {l1 l2 : List ℕ}
    (h : l1.Perm l2) : get_bet_hash lt l1 = get_bet_hash lt l2 := by
  unfold get_bet_hash
  have : l1.insertionSort (· ≤ ·) = l2.insertionSort (· ≤ ·) :=
    List.eq_of_perm_of_sorted
      ((List.perm_insertionSort _ l1).trans
        (h.trans (List.perm_insertionSort _ l2).symm))
      (List.sorted_insertionSort _ l1) (List.sorted_insertionSort _ l2)
  rw [this]

/-- C7: saving a bet and then saving a second bet with the same game and the
same numbers in any order leaves exactly one stored bet with that content
hash, and the second save reports a Conflict (the hash over
`(game, sorted numbers)` is order-insensitive and checked before
insertion; on conflict no insertion happens). -/
theorem C7_save_duplicate (b1 b2 : BetCreate) (store0 store1 : List BetDoc)
    (hok : save_bet b1 store0 = .ok store1)
    (hlt : b2.lottery_type = b1.lottery_type)
    (hperm : b2.numbers.Perm b1.numbers) :
    save_bet b2 store1 = .conflict ∧
    (store1.countP fun b =>
      b.hash = get_bet_hash b1.lottery_type b1.numbers) = 1 := by
  have hh : get_bet_hash b2.lottery_type b2.numbers =
      get_bet_hash b1.lottery_type b1.numbers := by
    rw [hlt]; exact get_bet_hash_perm _ hperm
  unfold save_bet at hok
  dsimp only [] at hok
  split at hok
  · exact absurd hok (by simp)
  · rename_i hdup
    rw [SaveOutcome.ok.injEq] at hok
    subst hok
    constructor
    · unfold save_bet
      rw [if_pos]
      rw [hh, List.any_append]
      simp
    · rw [List.countP_append]
      have h0 : (store0.countP fun b =>
          decide (b.hash = get_bet_hash b1.lottery_type b1.numbers)) = 0 := by
        rw [List.countP_eq_zero]
        intro b hb hbh
        exact hdup (by
          rw [List.any_eq_true]
          exact ⟨b, hb, hbh⟩)
      rw [h0]
      simp

/-- Witness for `C7_save_duplicate`: quina bets `[3,1,2,4,5]` then
`[5,4,3,2,1]` on an empty store. -/
theorem C7_witness :
    save_bet ⟨.quina, [5, 4, 3, 2, 1]⟩
      [{ lottery_type := .quina, numbers := [1, 2, 3, 4, 5],
         hash := "quina:1,2,3,4,5", checked := false }] = .conflict ∧
    (([{ lottery_type := .quina, numbers := [1, 2, 3, 4, 5],
         hash := "quina:1,2,3,4,5", checked := false }] : List BetDoc).countP
      fun b => b.hash = get_bet_hash .quina [3, 1, 2, 4, 5]) = 1 :=
  C7_save_duplicate ⟨.quina, [3, 1, 2, 4, 5]⟩ ⟨.quina, [5, 4, 3, 2, 1]⟩ []
    _ (by decide) (by decide) (by decide)

/-- An `Option`-valued left fold succeeds when every step does. -/
theorem foldlM_option_isSome {α β : Type} (g : β → α → Option β) :
    ∀ (l : List α) (b : β), (∀ b' a, a ∈ l → (g b' a).isSome) →
      (l.foldlM g b).isSome
  | [], _, _ => rfl
  | a :: l, b, h => by
    rw [List.foldlM_cons]
    have h0 := h b a (by simp)
    cases hg : g b a with
    | none => rw [hg] at h0; exact absurd h0 (by simp)
    | some b' =>
      simpa [hg] using
        foldlM_option_isSome g l b' fun b'' a' ha' => h b'' a' (by simp [ha'])

/-- An invariant preserved by every step of an `Option`-valued left fold
holds of its result. -/
theorem foldlM_option_inv {α β : Type} (P : β → Prop) (g : β → α → Option β) :
    ∀ (l : List α) (b : β), P b →
      (∀ b' a, a ∈ l → P b' → ∀ b'', g b' a = some b'' → P b'') →
      ∀ b'', l.foldlM g b = some b'' → P b''
  | [], b, hb, _, b'', heq => by
    simp only [List.foldlM_nil, Option.pure_def, Option.some.injEq] at heq
    exact heq ▸ hb
  | a :: l, b, hb, hstep, b'', heq => by
    rw [List.foldlM_cons] at heq
    cases hg : g b a with
    | none => rw [hg] at heq; exact absurd heq (by simp)
    | some b1 =>
      rw [hg] at heq
      exact foldlM_option_inv P g l b1
        (hstep b a (by simp) hb b1 hg)
        (fun b' a' ha' => hstep b' a' (by simp [ha']))
        b'' heq

/-- The second component of an `enum` entry is a member of the list. -/
theorem snd_mem_of_mem_enum {α : Type} {l : List α} {p : ℕ × α}
    (h : p ∈ l.enum) : p.2 ∈ l := by
  obtain ⟨i, a⟩ := p
  obtain ⟨hi, ha⟩ := List.mem_enum h
  simp only [ha]
  exact List.getElem_mem hi

/-- `last_seen` scanning succeeds when every first-draw number is in
range. -/
theorem lastSeenScan_isSome (maxN : ℕ) (results : List DrawRec)
    (h : ∀ rec ∈ results, ∀ x ∈ rec.dezenas, inRange maxN x) :
    (lastSeenScan maxN results).isSome := by
  unfold lastSeenScan
  refine foldlM_option_isSome _ _ _ fun f p hp => ?_
  refine foldlM_option_isSome _ _ _ fun f' d hd => ?_
  have hx : 1 ≤ d ∧ d ≤ maxN := h p.2 (snd_mem_of_mem_enum hp) d hd
  unfold lastSeenUpd
  rw [if_pos hx]
  rfl

/-- Every value of the scanned `last_seen` table is either the sentinel -1
or a record index below the list length. -/
theorem lastSeenScan_values (maxN : ℕ) (results : List DrawRec)
    (f : ℕ → ℤ) (hf : lastSeenScan maxN results = some f) :
    ∀ x, f x = -1 ∨ (0 ≤ f x ∧ f x < (results.length : ℤ)) := by
  unfold lastSeenScan at hf
  refine foldlM_option_inv
    (fun g => ∀ x, g x = -1 ∨ (0 ≤ g x ∧ g x < (results.length : ℤ))) _
    results.enum _ (fun _ => Or.inl rfl) ?_ f hf
  intro g p hp hg g'' hstep
  have hidx : p.1 < results.length := (List.mem_enum hp).1
  refine foldlM_option_inv
    (fun g2 => ∀ x, g2 x = -1 ∨ (0 ≤ g2 x ∧ g2 x < (results.length : ℤ))) _
    p.2.dezenas g hg ?_ g'' hstep
  intro g2 d _ hg2 g3 hupd
  unfold lastSeenUpd at hupd
  by_cases hr : 1 ≤ d ∧ d ≤ maxN
  · rw [if_pos hr] at hupd
    have hupd' := Option.some.inj hupd
    subst hupd'
    intro x
    by_cases hsent : g2 d = -1
    · rw [if_pos hsent]
      by_cases hx : x = d
      · subst hx
        rw [if_pos rfl]
        exact Or.inr ⟨by exact_mod_cast Nat.zero_le _, by exact_mod_cast hidx⟩
      · simp only [if_neg hx]
        exact hg2 x
    · rw [if_neg hsent]
      exact hg2 x
  · rw [if_neg hr] at hupd
    exact absurd hupd (by simp)

/-- `calculate_statistics` succeeds whenever every first-draw number is in
`[1, max_number]` (second-draw numbers never index the `last_seen` table). -/
theorem calculate_statistics_isSome (results : List DrawRec)
    (lt : LotteryType)
    (h : ∀ rec ∈ results, ∀ x ∈ rec.dezenas,
      inRange (lotteryConfig lt).max_number x) :
    (calculate_statistics results lt).isSome := by
  unfold calculate_statistics
  split
  · rfl
  · obtain ⟨f, hf⟩ := Option.isSome_iff_exists.mp
      (lastSeenScan_isSome (lotteryConfig lt).max_number results h)
    rw [hf]
    rfl

/-- C9: `calculate_statistics` returns a `Statistics` value without raising
for every record list whose drawn numbers all lie in `[1, max_number]`
(the `last_seen` lookup table is keyed only over that interval), and for
an input holding a drawn number outside that range — here the single
record `[0]` — it raises a `KeyError` (embedded `none`). -/
theorem C9_calculate_statistics_total :
    (∀ (results : List DrawRec) (lt : LotteryType),
      (∀ rec ∈ results, ∀ x ∈ rec.dezenas ++ rec.dezenas_segundo,
        inRange (lotteryConfig lt).max_number x) →
      (calculate_statistics results lt).isSome) ∧
    calculate_statistics [⟨[0], []⟩] .quina = none := by
  constructor
  · intro results lt h
    exact calculate_statistics_isSome results lt fun rec hrec x hx =>
      h rec hrec x (List.mem_append_left _ hx)
  · decide

/-- Witness for `C9_calculate_statistics_total` on a concrete in-range
record list. -/
theorem C9_witness : (calculate_statistics [⟨[1, 2], []⟩] .quina).isSome :=
  C9_calculate_statistics_total.1 [⟨[1, 2], []⟩] .quina (by decide)

/-- Rounding to the nearest integer (half to even) moves a rational by at
most 1/2. -/
theorem pyRoundInt_abs_le (q : ℚ) : |(pyRoundInt q : ℚ) - q| ≤ 1 / 2 := by
  unfold pyRoundInt
  have h0 : (0 : ℚ) ≤ q - ⌊q⌋ := sub_nonneg.mpr (Int.floor_le q)
  have h1 : q - ⌊q⌋ < 1 := by
    have := Int.lt_floor_add_one q
    linarith
  split_ifs with ha hb hc
  · rw [abs_le]; constructor <;> linarith
  · rw [abs_le]; push_cast; constructor <;> linarith
  · rw [abs_le]; constructor <;> linarith
  · have heq : q - ⌊q⌋ = 1 / 2 := le_antisymm (not_lt.mp hb) (not_lt.mp ha)
    rw [abs_le]; push_cast; constructor <;> linarith

/-- Rounding to one decimal (half to even) moves a rational by at most
1/20. -/
theorem pyRound1_abs_le (q : ℚ) : |pyRound1 q - q| ≤ 1 / 20 := by
  unfold pyRound1
  have h := pyRoundInt_abs_le (q * 10)
  have heq : (pyRoundInt (q * 10) : ℚ) / 10 - q =
      ((pyRoundInt (q * 10) : ℚ) - q * 10) / 10 := by ring
  rw [heq, abs_div, abs_of_pos (by norm_num : (0 : ℚ) < 10)]
  linarith

/-- The shape of a successful non-empty `calculate_statistics` run. -/
theorem calculate_statistics_eq_some {results : List DrawRec}
    {lt : LotteryType} {f : ℕ → ℤ} (hne : results ≠ [])
    (hf : lastSeenScan (lotteryConfig lt).max_number results = some f) :
    calculate_statistics results lt = some
      { hot_numbers := statsHot lt results
        cold_numbers := statsCold lt results
        delayed_numbers := statsDelayed (lotteryConfig lt).max_number f
        even_odd := statsEvenOdd lt results
        range_distribution := statsRange lt results
        total_draws_analyzed := results.length } := by
  unfold calculate_statistics
  rw [if_neg (by simpa using hne), hf]

/-- C4 counterexample: the single record with an empty number list gives
`total_draws_analyzed = 1 > 0` while both `even_odd_ratio` percentages are
0 — their sum is not within rounding distance of 100. -/
theorem C4_counterexample :
    ((calculate_statistics [⟨[], []⟩] .quina).map fun s =>
      (s.total_draws_analyzed, s.even_odd)) = some (1, 0, 0) ∧
    ¬(|(0 : ℚ) + 0 - 100| ≤ 1 / 10) := by
  constructor
  · with_unfolding_all decide
  · norm_num

/-- C4 (amended): whenever the analyzed records contain at least one drawn
number occurrence (in particular `total_draws_analyzed > 0` then holds),
the two `even_odd_ratio` percentages sum to 100 up to the rounding of each
to 1 decimal; when the records contain no number occurrence at all — in
particular for zero records, where `total_draws_analyzed = 0` — both
percentages are 0 and no error is raised. -/
theorem C4_even_odd_sum (results : List DrawRec) (lt : LotteryType)
    (s : Statistics) (hs : calculate_statistics results lt = some s) :
    (allNumbers lt results ≠ [] →
      |s.even_odd.1 + s.even_odd.2 - 100| ≤ 1 / 10) ∧
    (allNumbers lt results = [] → s.even_odd = (0, 0)) ∧
    (results = [] → s.total_draws_analyzed = 0) := by
  by_cases hne : results = []
  · subst hne
    unfold calculate_statistics at hs
    simp only [List.isEmpty_nil, if_pos] at hs
    obtain rfl := (Option.some.inj hs).symm
    refine ⟨fun h => absurd rfl h, fun _ => rfl, fun _ => rfl⟩
  · have hscan : (lastSeenScan (lotteryConfig lt).max_number results).isSome := by
      unfold calculate_statistics at hs
      rw [if_neg (by simpa using hne)] at hs
      cases hsc : lastSeenScan (lotteryConfig lt).max_number results with
      | none => rw [hsc] at hs; exact absurd hs (by simp)
      | some f => rfl
    obtain ⟨f, hf⟩ := Option.isSome_iff_exists.mp hscan
    rw [calculate_statistics_eq_some hne hf] at hs
    obtain rfl := (Option.some.inj hs).symm
    refine ⟨?_, ?_, fun h => absurd h hne⟩
    · intro hall
      show |(statsEvenOdd lt results).1 + (statsEvenOdd lt results).2 - 100| ≤ 1 / 10
      unfold statsEvenOdd
      dsimp only []
      set all := allNumbers lt results with hall_def
      have he : countEven all ≤ all.length := List.countP_le_length _
      have hlenpos : 0 < all.length := List.length_pos.mpr hall
      have htot : countEven all + (all.length - countEven all) = all.length := by
        omega
      rw [htot]
      rw [if_pos hlenpos]
      dsimp only
      set x : ℚ := (countEven all : ℚ) / (all.length : ℚ) * 100 with hx
      set y : ℚ := ((all.length - countEven all : ℕ) : ℚ) / (all.length : ℚ) * 100 with hy
      have hxy : x + y = 100 := by
        rw [hx, hy]
        have hcast : ((all.length - countEven all : ℕ) : ℚ) =
            (all.length : ℚ) - (countEven all : ℚ) := by
          push_cast [he]
          ring
        rw [hcast]
        have hl0 : (all.length : ℚ) ≠ 0 := by
          exact_mod_cast Nat.pos_iff_ne_zero.mp hlenpos
        field_simp
        ring
      have b1 := pyRound1_abs_le x
      have b2 := pyRound1_abs_le y
      have : pyRound1 x + pyRound1 y - 100 =
          (pyRound1 x - x) + (pyRound1 y - y) := by
        rw [← hxy]; ring
      rw [this]
      calc |(pyRound1 x - x) + (pyRound1 y - y)|
          ≤ |pyRound1 x - x| + |pyRound1 y - y| := abs_add _ _
        _ ≤ 1 / 20 + 1 / 20 := add_le_add b1 b2
        _ = 1 / 10 := by norm_num
    · intro hall
      show statsEvenOdd lt results = (0, 0)
      unfold statsEvenOdd
      dsimp only []
      rw [hall]
      rfl

/-- Witness for `C4_even_odd_sum` on a concrete one-record list. -/
theorem C4_witness :
    ∃ s, calculate_statistics [⟨[1, 2], []⟩] .quina = some s ∧
      (allNumbers .quina [⟨[1, 2], []⟩] ≠ [] →
        |s.even_odd.1 + s.even_odd.2 - 100| ≤ 1 / 10) := by
  obtain ⟨s, hs⟩ := Option.isSome_iff_exists.mp
    (calculate_statistics_isSome [⟨[1, 2], []⟩] .quina (by decide))
  exact ⟨s, hs, (C4_even_odd_sum _ _ s hs).1⟩

/-- C10: hot-number percentages are `round(frequency / len(results) * 100, 1)`
— frequency over the flattened numbers, which for dupla_sena include both
draw sets — so a number appearing in both sets of the single analyzed
record reports frequency 2 and percentage 200 > 100. -/
theorem C10_dupla_percentage :
    (∀ (results : List DrawRec) (s : Statistics),
      calculate_statistics results .dupla_sena = some s →
      ∀ e ∈ s.hot_numbers,
        e.percentage = pyRound1 ((e.frequency : ℚ) / results.length * 100)) ∧
    ((calculate_statistics [⟨[7, 1, 2, 3, 4, 5], [7, 8, 9, 10, 11, 12]⟩]
        .dupla_sena).map fun s =>
      (s.hot_numbers.take 1).map fun e => (e.number, e.frequency, e.percentage))
      = some [(7, 2, 200)] ∧
    (100 : ℚ) < 200 := by
  refine ⟨?_, by with_unfolding_all decide, by norm_num⟩
  intro results s hs e he
  by_cases hne : results = []
  · subst hne
    have h0 : calculate_statistics [] .dupla_sena =
        some { hot_numbers := [], cold_numbers := [], delayed_numbers := []
               even_odd := (0, 0), range_distribution := (0, 0, 0)
               total_draws_analyzed := 0 } := rfl
    rw [h0] at hs
    obtain rfl := (Option.some.inj hs).symm
    simp at he
  · have hscan : (lastSeenScan (lotteryConfig .dupla_sena).max_number
        results).isSome := by
      unfold calculate_statistics at hs
      rw [if_neg (by simpa using hne)] at hs
      cases hsc : lastSeenScan (lotteryConfig .dupla_sena).max_number results with
      | none => rw [hsc] at hs; exact absurd hs (by simp)
      | some f => rfl
    obtain ⟨f, hf⟩ := Option.isSome_iff_exists.mp hscan
    rw [calculate_statistics_eq_some hne hf] at hs
    obtain rfl := (Option.some.inj hs).symm
    have he' : e ∈ statsHot .dupla_sena results := he
    unfold statsHot at he'
    obtain ⟨p, _, rfl⟩ := List.mem_map.mp he'
    rfl

/-- Witness for the universally quantified part of `C10_dupla_percentage`
on a concrete one-record input. -/
theorem C10_witness :
    ∃ s, calculate_statistics [⟨[7, 1, 2], []⟩] .dupla_sena = some s ∧
      ∀ e ∈ s.hot_numbers,
        e.percentage = pyRound1 ((e.frequency : ℚ) /
          ([⟨[7, 1, 2], []⟩] : List DrawRec).length * 100) := by
  obtain ⟨s, hs⟩ := Option.isSome_iff_exists.mp
    (calculate_statistics_isSome [⟨[7, 1, 2], []⟩] .dupla_sena (by decide))
  exact ⟨s, hs, C10_dupla_percentage.1 [⟨[7, 1, 2], []⟩] s hs⟩

/-- Destructuring a successful non-empty `calculate_statistics` run. -/
theorem calculate_statistics_some_shape {results : List DrawRec}
    {lt : LotteryType} {s : Statistics} (hne : results ≠ [])
    (hs : calculate_statistics results lt = some s) :
    ∃ f, lastSeenScan (lotteryConfig lt).max_number results = some f ∧
      s = { hot_numbers := statsHot lt results
            cold_numbers := statsCold lt results
            delayed_numbers := statsDelayed (lotteryConfig lt).max_number f
            even_odd := statsEvenOdd lt results
            range_distribution := statsRange lt results
            total_draws_analyzed := results.length } := by
  have hscan : (lastSeenScan (lotteryConfig lt).max_number results).isSome := by
    unfold calculate_statistics at hs
    rw [if_neg (by simpa using hne)] at hs
    cases hsc : lastSeenScan (lotteryConfig lt).max_number results with
    | none => rw [hsc] at hs; exact absurd hs (by simp)
    | some f => rfl
  obtain ⟨f, hf⟩ := Option.isSome_iff_exists.mp hscan
  refine ⟨f, hf, ?_⟩
  rw [calculate_statistics_eq_some hne hf] at hs
  exact (Option.some.inj hs).symm

set_option maxRecDepth 100000 in
/-- C6 counterexample: 1000 empty records followed by one record drawing
number 1.  Number 1 is seen, with first-seen index 1000 — beyond the 999
sentinel that encodes "never seen" — so it ranks *above* the never-seen
number 2, and the ranking property of claim C6 evaluates to false on the
produced `delayed_numbers`. -/
theorem C6_counterexample :
    ((calculate_statistics
        (List.replicate 1000 (DrawRec.mk [] []) ++ [⟨[1], []⟩]) .quina).map
      fun s =>
        (s.delayed_numbers.take 2, decide (neverAboveStale s.delayed_numbers)))
      = some ([(1, some 1000), (2, none)], false) := by
  decide

/-- C6 (amended): for every record list of at most 999 records — so every
seen first-appearance index stays below the 999 sentinel encoding
"never seen" — the delayed-number ranking places every number never seen in
the window strictly above every seen number it lists. -/
theorem C6_delayed_ranking (results : List DrawRec) (lt : LotteryType)
    (s : Statistics) (hs : calculate_statistics results lt = some s)
    (hlen : results.length ≤ 999) :
    neverAboveStale s.delayed_numbers := by
  by_cases hne : results = []
  · subst hne
    have h0 : calculate_statistics [] lt = some
        { hot_numbers := [], cold_numbers := [], delayed_numbers := []
          even_odd := (0, 0), range_distribution := (0, 0, 0)
          total_draws_analyzed := 0 } := rfl
    rw [h0] at hs
    obtain rfl := (Option.some.inj hs).symm
    intro i hi
    simp at hi
  · obtain ⟨f, hf, rfl⟩ := calculate_statistics_some_shape hne hs
    have hvals := lastSeenScan_values _ _ f hf
    show neverAboveStale (statsDelayed (lotteryConfig lt).max_number f)
    unfold statsDelayed
    dsimp only []
    haveI hTot : IsTotal (ℕ × ℤ)
        (fun a b => delayedKey b ≤ delayedKey a) :=
      ⟨fun a b => le_total (delayedKey b) (delayedKey a)⟩
    haveI hTrans : IsTrans (ℕ × ℤ)
        (fun a b => delayedKey b ≤ delayedKey a) :=
      ⟨fun _ _ _ hab hbc => le_trans hbc hab⟩
    set pairs := ((List.range' 1 (lotteryConfig lt).max_number).filter fun n =>
      decide (f n = -1 ∨ f n > 5)).map (fun n => (n, f n)) with hpairs
    set srt := pairs.insertionSort
      (fun a b => delayedKey b ≤ delayedKey a) with hsrt
    set tl := srt.take 15 with htl
    have hsorted : List.Pairwise (fun a b => delayedKey b ≤ delayedKey a) tl :=
      (List.sorted_insertionSort _ pairs).sublist (List.take_sublist _ _)
    intro i hi j hj hsome hnone
    rw [List.length_map] at hi hj
    rw [List.getD_eq_getElem _ _ (by simpa using hi), List.getElem_map]
      at hsome
    rw [List.getD_eq_getElem _ _ (by simpa using hj), List.getElem_map]
      at hnone
    have hi2 : tl[i].2 ≥ 0 := by
      by_contra hneg
      rw [if_neg hneg] at hsome
      exact hsome rfl
    have hj2 : ¬(tl[j].2 ≥ 0) := by
      intro hpos
      rw [if_pos hpos] at hnone
      exact absurd hnone (by simp)
    have hmem : tl[i] ∈ pairs := by
      have h1 : tl[i] ∈ tl := List.getElem_mem hi
      have h2 : tl[i] ∈ srt := List.Sublist.mem h1 (List.take_sublist _ _)
      exact ((List.perm_insertionSort _ pairs).mem_iff).mp h2
    have hbound : tl[i].2 ≤ 998 := by
      rw [hpairs] at hmem
      obtain ⟨n, _, heq⟩ := List.mem_map.mp hmem
      have := hvals n
      rcases this with hneg | ⟨_, hlt'⟩
      · rw [← heq] at hi2 ⊢
        simp only at hi2 ⊢
        omega
      · rw [← heq]
        simp only
        have : (results.length : ℤ) ≤ 999 := by exact_mod_cast hlen
        omega
    by_contra hnlt
    have hij : i ≤ j := by omega
    rcases Nat.lt_or_ge i j with hlt2 | hge
    · have hrel := List.pairwise_iff_getElem.mp hsorted i j hi hj hlt2
      have hkey_j : delayedKey tl[j] = 999 := by
        unfold delayedKey
        rw [if_neg hj2]
      have hkey_i : delayedKey tl[i] = tl[i].2 := by
        unfold delayedKey
        rw [if_pos hi2]
      rw [hkey_j, hkey_i] at hrel
      omega
    · have : i = j := by omega
      subst this
      exact hj2 hi2

/-- Witness for `C6_delayed_ranking` on a 7-record list where number 1 is
seen only at index 6 (stale) and all other numbers are never seen. -/
theorem C6_witness :
    ∃ s, calculate_statistics
        (List.replicate 6 (DrawRec.mk [] []) ++ [⟨[1], []⟩]) .quina = some s ∧
      neverAboveStale s.delayed_numbers := by
  obtain ⟨s, hs⟩ := Option.isSome_iff_exists.mp
    (calculate_statistics_isSome
      (List.replicate 6 (DrawRec.mk [] []) ++ [⟨[1], []⟩]) .quina (by decide))
  exact ⟨s, hs, C6_delayed_ranking _ .quina s hs (by decide)⟩

/-- A set of distinct positive naturals of size `n` sums to at least
`1 + 2 + ... + n`. -/
theorem sum_distinct_pos_ge :
    ∀ (n : ℕ) (S : Finset ℕ), S.card = n → (∀ x ∈ S, 1 ≤ x) →
      ∑ i ∈ Finset.range n, (i + 1) ≤ ∑ x ∈ S, x
  | 0, S, _, _ => by simp
  | n + 1, S, hc, hpos => by
    have hne : S.Nonempty := Finset.card_pos.mp (by omega)
    have hmem : S.max' hne ∈ S := S.max'_mem hne
    have hsub : S ⊆ Finset.Icc 1 (S.max' hne) := fun x hx =>
      Finset.mem_Icc.mpr ⟨hpos x hx, S.le_max' x hx⟩
    have hcard : n + 1 ≤ S.max' hne := by
      have h := Finset.card_le_card hsub
      rwa [Nat.card_Icc, hc, Nat.add_sub_cancel] at h
    have herase : (S.erase (S.max' hne)).card = n := by
      rw [Finset.card_erase_of_mem hmem, hc]
      omega
    have hrec := sum_distinct_pos_ge n (S.erase (S.max' hne)) herase
      fun x hx => hpos x (Finset.mem_of_mem_erase hx)
    have hsum : ∑ x ∈ S, x = S.max' hne + ∑ x ∈ S.erase (S.max' hne), x :=
      (Finset.add_sum_erase _ _ hmem).symm
    rw [Finset.sum_range_succ, hsum]
    omega

/-- A list of naturals all at least `b` sums to at least
`b * length`. -/
theorem mul_length_le_sum (b : ℕ) :
    ∀ l : List ℕ, (∀ x ∈ l, b ≤ x) → b * l.length ≤ l.sum
  | [], _ => by simp
  | x :: l, h => by
    simp only [List.length_cons, List.sum_cons]
    have h1 := mul_length_le_sum b l fun y hy => h y (by simp [hy])
    have h2 := h x (by simp)
    calc b * (l.length + 1) = b * l.length + b := by ring
      _ ≤ l.sum + x := by omega
      _ = x + l.sum := by omega

/-- C5 counterexample: five quina records, each with exactly 5 numbers in
`[1, 80]` (four times `[1,1,1,1,1]`, once `[1,1,1,1,2]`), so all qualify
under the claim's wording.  Their mean sum is 26/5 = 5.2, but
`optimal_sum_max = int(5.2 * 1.15) = 5 < 5.2`: the derived range does not
bracket the mean. -/
theorem C5_counterexample :
    (∀ rec ∈ ([⟨[1, 1, 1, 1, 1], []⟩, ⟨[1, 1, 1, 1, 1], []⟩,
        ⟨[1, 1, 1, 1, 1], []⟩, ⟨[1, 1, 1, 1, 1], []⟩,
        ⟨[1, 1, 1, 1, 2], []⟩] : List DrawRec),
      (recNums rec).length = 5 ∧ ∀ x ∈ recNums rec, inRange 80 x) ∧
    (analyze_winning_patterns [⟨[1, 1, 1, 1, 1], []⟩, ⟨[1, 1, 1, 1, 1], []⟩,
        ⟨[1, 1, 1, 1, 1], []⟩, ⟨[1, 1, 1, 1, 1], []⟩,
        ⟨[1, 1, 1, 1, 2], []⟩] .quina).optimal_sum_max = some 5 ∧
    listMean (sumPatterns 5 [⟨[1, 1, 1, 1, 1], []⟩, ⟨[1, 1, 1, 1, 1], []⟩,
        ⟨[1, 1, 1, 1, 1], []⟩, ⟨[1, 1, 1, 1, 1], []⟩,
        ⟨[1, 1, 1, 1, 2], []⟩]) = 26 / 5 ∧
    ¬(listMean (sumPatterns 5 [⟨[1, 1, 1, 1, 1], []⟩, ⟨[1, 1, 1, 1, 1], []⟩,
        ⟨[1, 1, 1, 1, 1], []⟩, ⟨[1, 1, 1, 1, 1], []⟩,
        ⟨[1, 1, 1, 1, 2], []⟩]) ≤ ((5 : ℤ) : ℚ)) := by
  with_unfolding_all decide

/-- C5 (amended): the Pattern Profile's sum range brackets the mean of the
kept records' sums — `optimal_sum_min ≤ mean ≤ optimal_sum_max` with the
bounds `int(mean*0.85)` / `int(mean*1.15)` — whenever at least one record
is kept and every kept record (first 50, number count exactly
`numbers_to_pick`) has *distinct* positive numbers. -/
theorem C5_sum_range (results : List DrawRec) (lt : LotteryType)
    (hne : sumPatterns (lotteryConfig lt).numbers_to_pick results ≠ [])
    (hvalid : ∀ rec ∈ results.take 50,
      (recNums rec).length = (lotteryConfig lt).numbers_to_pick →
      (recNums rec).Nodup ∧ ∀ x ∈ recNums rec, 1 ≤ x) :
    ∃ smin smax : ℤ,
      (analyze_winning_patterns results lt).optimal_sum_min = some smin ∧
      (analyze_winning_patterns results lt).optimal_sum_max = some smax ∧
      (smin : ℚ) ≤
        listMean (sumPatterns (lotteryConfig lt).numbers_to_pick results) ∧
      listMean (sumPatterns (lotteryConfig lt).numbers_to_pick results) ≤
        (smax : ℚ) := by
  set n := (lotteryConfig lt).numbers_to_pick with hn
  have hn5 : 5 ≤ n := by cases lt <;> simp [hn, lotteryConfig]
  have hel : ∀ s ∈ sumPatterns n results, 15 ≤ s := by
    intro s hsx
    unfold sumPatterns at hsx
    obtain ⟨nums, hnums, rfl⟩ := List.mem_map.mp hsx
    unfold keptNums at hnums
    obtain ⟨rec, hrec, heq⟩ := List.mem_filterMap.mp hnums
    by_cases hl : (recNums rec).length = n
    · rw [if_pos hl] at heq
      obtain rfl := Option.some.inj heq
      obtain ⟨hnd, hpos⟩ := hvalid rec hrec hl
      have hcard : (recNums rec).toFinset.card = n := by
        rw [List.toFinset_card_of_nodup hnd, hl]
      have h1 := sum_distinct_pos_ge n (recNums rec).toFinset hcard
        fun x hx => hpos x (List.mem_toFinset.mp hx)
      have h2 : ∑ x ∈ (recNums rec).toFinset, x = (recNums rec).sum := by
        have h3 := List.sum_toFinset (fun x : ℕ => x) hnd
        simpa using h3
      have h15 : 15 ≤ ∑ i ∈ Finset.range n, (i + 1) := by
        calc 15 = ∑ i ∈ Finset.range 5, (i + 1) := by decide
          _ ≤ ∑ i ∈ Finset.range n, (i + 1) :=
            Finset.sum_le_sum_of_subset (Finset.range_subset.mpr hn5)
      omega
    · rw [if_neg hl] at heq
      exact absurd heq (by simp)
  have hlenpos : 0 < (sumPatterns n results).length := List.length_pos.mpr hne
  have hmean15 : (15 : ℚ) ≤ listMean (sumPatterns n results) := by
    unfold listMean
    rw [le_div_iff₀ (by exact_mod_cast hlenpos)]
    have := mul_length_le_sum 15 _ hel
    exact_mod_cast this
  set m := listMean (sumPatterns n results) with hm
  have hm0 : (0 : ℚ) ≤ m := le_trans (by norm_num) hmean15
  refine ⟨pyInt (m * (17 / 20)), pyInt (m * (23 / 20)), ?_, ?_, ?_, ?_⟩
  · unfold analyze_winning_patterns
    dsimp only []
    rw [if_pos (by rw [← hn]; exact hne)]
  · unfold analyze_winning_patterns
    dsimp only []
    rw [if_pos (by rw [← hn]; exact hne)]
  · unfold pyInt
    rw [if_pos (by positivity)]
    calc ((⌊m * (17 / 20)⌋ : ℤ) : ℚ) ≤ m * (17 / 20) := Int.floor_le _
      _ ≤ m := by nlinarith
  · unfold pyInt
    rw [if_pos (by positivity)]
    have hfl : m * (23 / 20) - 1 < ((⌊m * (23 / 20)⌋ : ℤ) : ℚ) :=
      Int.sub_one_lt_floor _
    have : m < ((⌊m * (23 / 20)⌋ : ℤ) : ℚ) := by nlinarith
    exact le_of_lt this

/-- Witness for `C5_sum_range` on a single well-formed quina record. -/
theorem C5_witness :
    ∃ smin smax : ℤ,
      (analyze_winning_patterns [⟨[1, 2, 3, 4, 5], []⟩]
        .quina).optimal_sum_min = some smin ∧
      (analyze_winning_patterns [⟨[1, 2, 3, 4, 5], []⟩]
        .quina).optimal_sum_max = some smax ∧
      (smin : ℚ) ≤ listMean (sumPatterns
        (lotteryConfig .quina).numbers_to_pick [⟨[1, 2, 3, 4, 5], []⟩]) ∧
      listMean (sumPatterns (lotteryConfig .quina).numbers_to_pick
        [⟨[1, 2, 3, 4, 5], []⟩]) ≤ (smax : ℚ) :=
  C5_sum_range [⟨[1, 2, 3, 4, 5], []⟩] .quina
    (by with_unfolding_all decide) (by decide)

/-- Fold characterization of `pyDedupFirst`: membership in the running
accumulator. -/
theorem mem_pyDedupFirst_go (l : List ℕ) :
    ∀ (acc : List ℕ) (x : ℕ),
      (x ∈ l.foldl (fun acc x => if x ∈ acc then acc else acc ++ [x]) acc ↔
        x ∈ acc ∨ x ∈ l) := by
  induction l with
  | nil => intro acc x; simp
  | cons a l ih =>
    intro acc x
    simp only [List.foldl_cons]
    by_cases ha : a ∈ acc
    · rw [if_pos ha, ih]
      constructor
      · rintro (h | h)
        · exact Or.inl h
        · exact Or.inr (List.mem_cons_of_mem _ h)
      · rintro (h | h)
        · exact Or.inl h
        · rcases List.mem_cons.mp h with rfl | h
          · exact Or.inl ha
          · exact Or.inr h
    · rw [if_neg ha, ih]
      constructor
      · rintro (h | h)
        · rcases List.mem_append.mp h with h | h
          · exact Or.inl h
          · simp only [List.mem_singleton] at h
            exact Or.inr (by simp [h])
        · exact Or.inr (List.mem_cons_of_mem _ h)
      · rintro (h | h)
        · exact Or.inl (List.mem_append_left _ h)
        · rcases List.mem_cons.mp h with rfl | h
          · exact Or.inl (List.mem_append_right _ (by simp))
          · exact Or.inr h

/-- `list(set(l))` has the same members as `l`. -/
theorem mem_pyDedupFirst {x : ℕ} {l : List ℕ} :
    x ∈ pyDedupFirst l ↔ x ∈ l := by
  unfold pyDedupFirst
  rw [mem_pyDedupFirst_go]
  simp

/-- `list(set(l))` has no duplicates. -/
theorem pyDedupFirst_nodup (l : List ℕ) : (pyDedupFirst l).Nodup := by
  have main : ∀ (l' : List ℕ) (acc : List ℕ), acc.Nodup →
      (l'.foldl (fun acc x => if x ∈ acc then acc else acc ++ [x]) acc).Nodup := by
    intro l'
    induction l' with
    | nil => intro acc h; simpa using h
    | cons a t ih =>
      intro acc h
      simp only [List.foldl_cons]
      by_cases ha : a ∈ acc
      · rw [if_pos ha]; exact ih acc h
      · rw [if_neg ha]
        exact ih _ (by
          rw [List.nodup_append]
          exact ⟨h, List.nodup_singleton a, by simpa using ha⟩)
  exact main l [] List.nodup_nil

/-- The counter's counts over its distinct keys sum to the total number of
occurrences. -/
theorem sum_counts_pyDedupFirst (l : List ℕ) :
    ((pyDedupFirst l).map fun n => l.count n).sum = l.length := by
  have hnd := pyDedupFirst_nodup l
  have hfs : (pyDedupFirst l).toFinset = l.toFinset := by
    ext x
    simp [List.mem_toFinset, mem_pyDedupFirst]
  have h1 := List.sum_toFinset (fun n : ℕ => l.count n) hnd
  rw [hfs] at h1
  rw [← h1]
  exact List.sum_toFinset_count_eq_length l

/-- C8: for quina, over any 100 well-formed records in which number 7
appears in exactly 40, the Frequency Snapshot lists 7 among `hot_numbers`
with frequency 40 and percentage 40.0.  (At most 12 distinct numbers can
reach frequency 40 among the 500 drawn numbers, so 7 is within the top
15 regardless of tie order.) -/
theorem C8_hot_seven (results : List DrawRec)
    (hlen : results.length = 100)
    (hshape : ∀ rec ∈ results, rec.dezenas.length = 5 ∧ rec.dezenas.Nodup ∧
      ∀ x ∈ rec.dezenas, inRange 80 x)
    (h7 : (results.countP fun rec => 7 ∈ rec.dezenas) = 40) :
    ∃ s, calculate_statistics results .quina = some s ∧
      (⟨7, 40, 40⟩ : NumStat) ∈ s.hot_numbers := by
  have hne : results ≠ [] := by
    intro h; rw [h] at hlen; simp at hlen
  obtain ⟨s, hs⟩ := Option.isSome_iff_exists.mp
    (calculate_statistics_isSome results .quina
      fun rec hrec x hx => (hshape rec hrec).2.2 x hx)
  refine ⟨s, hs, ?_⟩
  obtain ⟨f, hf, rfl⟩ := calculate_statistics_some_shape hne hs
  show (⟨7, 40, 40⟩ : NumStat) ∈ statsHot .quina results
  unfold statsHot mostCommon
  set all := allNumbers .quina results with hall
  have hallq : all = results.flatMap (·.dezenas) := by
    rw [hall]; unfold allNumbers; simp
  have hcnt : ∀ (l : List DrawRec), (∀ rec ∈ l, rec.dezenas.Nodup) →
      (l.map (List.count 7 ∘ (·.dezenas))).sum =
        l.countP fun rec => 7 ∈ rec.dezenas := by
    intro l
    induction l with
    | nil => simp
    | cons a t ih =>
      intro h
      simp only [List.map_cons, List.sum_cons, List.countP_cons,
        Function.comp_apply]
      rw [ih fun rec hrec => h rec (by simp [hrec])]
      by_cases hmem : 7 ∈ a.dezenas
      · rw [List.count_eq_one_of_mem (h a (by simp)) hmem]
        simp [hmem]
        omega
      · rw [List.count_eq_zero.mpr hmem]
        simp [hmem]
  have hcount7 : all.count 7 = 40 := by
    rw [hallq, List.count_flatMap,
      hcnt results (fun rec hrec => (hshape rec hrec).2.1), h7]
  have hlensum : ∀ (l : List DrawRec), (∀ rec ∈ l, rec.dezenas.length = 5) →
      (l.map (List.length ∘ (·.dezenas))).sum = 5 * l.length := by
    intro l
    induction l with
    | nil => simp
    | cons a t ih =>
      intro h
      simp only [List.map_cons, List.sum_cons, List.length_cons,
        Function.comp_apply]
      rw [ih fun rec hrec => h rec (by simp [hrec]), h a (by simp)]
      ring
  have hlen500 : all.length = 500 := by
    rw [hallq, List.length_flatMap,
      hlensum results fun rec hrec => (hshape rec hrec).1, hlen]
  have hmem7 : 7 ∈ all := by
    have : 0 < all.count 7 := by rw [hcount7]; omega
    exact List.count_pos_iff.mp this
  set pairs := (pyDedupFirst all).map (fun n => (n, all.count n)) with hpairs
  set srt := pairs.insertionSort (fun a b => b.2 ≤ a.2) with hsrt
  have hperm : srt.Perm pairs := List.perm_insertionSort _ _
  haveI : IsTotal (ℕ × ℕ) (fun a b => b.2 ≤ a.2) :=
    ⟨fun a b => le_total b.2 a.2⟩
  haveI : IsTrans (ℕ × ℕ) (fun a b => b.2 ≤ a.2) :=
    ⟨fun _ _ _ hab hbc => le_trans hbc hab⟩
  have hsorted : List.Pairwise (fun a b : ℕ × ℕ => b.2 ≤ a.2) srt :=
    List.sorted_insertionSort _ pairs
  have hmem_pairs : ((7 : ℕ), (40 : ℕ)) ∈ pairs := by
    rw [hpairs]
    exact List.mem_map.mpr ⟨7, mem_pyDedupFirst.mpr hmem7, by rw [hcount7]⟩
  have hmem_srt : ((7 : ℕ), (40 : ℕ)) ∈ srt := hperm.mem_iff.mpr hmem_pairs
  obtain ⟨i, hi, hieq⟩ := List.mem_iff_getElem.mp hmem_srt
  have hsum : (srt.map (·.2)).sum = 500 := by
    rw [(hperm.map (·.2)).sum_eq, hpairs, List.map_map]
    have heq2 : ((fun p : ℕ × ℕ => p.2) ∘ fun n => (n, all.count n)) =
        fun n => all.count n := rfl
    rw [heq2, sum_counts_pyDedupFirst, hlen500]
  have hpref : ∀ p ∈ srt.take (i + 1), 40 ≤ p.2 := by
    intro p hp
    obtain ⟨k, hk, hkeq⟩ := List.mem_iff_getElem.mp hp
    have hk2 : k < srt.length := by
      rw [List.length_take] at hk
      omega
    rw [List.getElem_take] at hkeq
    have hki : k ≤ i := by
      rw [List.length_take] at hk
      omega
    rcases Nat.lt_or_ge k i with hlt | hge
    · have hrel := List.pairwise_iff_getElem.mp hsorted k i hk2 hi hlt
      rw [hieq] at hrel
      rw [← hkeq]
      exact hrel
    · have : k = i := by omega
      subst this
      rw [← hkeq, hieq]
  have hlen_pref : 40 * (srt.take (i + 1)).length ≤
      ((srt.take (i + 1)).map (·.2)).sum := by
    have h := mul_length_le_sum 40 ((srt.take (i + 1)).map (·.2)) (by
      intro x hx
      obtain ⟨p, hp, rfl⟩ := List.mem_map.mp hx
      exact hpref p hp)
    simpa [List.length_map] using h
  have hsub_sum : ((srt.take (i + 1)).map (·.2)).sum ≤ (srt.map (·.2)).sum :=
    List.Sublist.sum_le_sum ((List.take_sublist _ _).map _)
      fun a _ => Nat.zero_le a
  have htake_len : (srt.take (i + 1)).length = i + 1 := by
    rw [List.length_take]
    omega
  have hi15 : i < 15 := by
    rw [htake_len] at hlen_pref
    rw [hsum] at hsub_sum
    omega
  have hmem_take : ((7 : ℕ), (40 : ℕ)) ∈ srt.take 15 := by
    rw [List.mem_iff_getElem]
    refine ⟨i, ?_, ?_⟩
    · rw [List.length_take]
      omega
    · rw [List.getElem_take]
      exact hieq
  refine List.mem_map.mpr ⟨(7, 40), hmem_take, ?_⟩
  rw [hlen]
  have hpct : pyRound1 (((40 : ℕ) : ℚ) / (100 : ℕ) * 100) = 40 := by
    norm_num
    unfold pyRound1 pyRoundInt
    norm_num
  rw [NumStat.mk.injEq]
  refine ⟨rfl, rfl, ?_⟩
  exact_mod_cast hpct

/-- Witness for `C8_hot_seven`: 40 records drawing `[7,1,2,3,4]` and 60
drawing `[1,2,3,4,5]`. -/
theorem C8_witness :
    ∃ s, calculate_statistics
        (List.replicate 40 (DrawRec.mk [7, 1, 2, 3, 4] []) ++
         List.replicate 60 (DrawRec.mk [1, 2, 3, 4, 5] [])) .quina = some s ∧
      (⟨7, 40, 40⟩ : NumStat) ∈ s.hot_numbers :=
  C8_hot_seven
    (List.replicate 40 (DrawRec.mk [7, 1, 2, 3, 4] []) ++
     List.replicate 60 (DrawRec.mk [1, 2, 3, 4, 5] []))
    (by decide) (by decide) (by decide)

/-- `random.choice` succeeds on a non-empty population. -/
theorem pyChoice_isSome {l : List ℕ} (h : l ≠ []) (r : Rng) :
    (pyChoice l r).isSome := by
  unfold pyChoice
  rw [dif_pos (List.length_pos.mpr h)]
  rfl

/-- `random.choice` picks a member of the population. -/
theorem pyChoice_mem {l : List ℕ} {r : Rng} {x : ℕ} {r' : Rng}
    (h : pyChoice l r = some (x, r')) : x ∈ l := by
  unfold pyChoice at h
  by_cases hl : 0 < l.length
  · rw [dif_pos hl] at h
    obtain ⟨h1, _⟩ := Prod.mk.injEq .. ▸ Option.some.inj h
    rw [← h1]
    exact List.get_mem _ _ _
  · rw [dif_neg hl] at h
    exact absurd h (by simp)

/-- `sampleGo` picks members of the population. -/
theorem sampleGo_subset :
    ∀ (l : List ℕ) (k : ℕ) (r : Rng), ∀ x ∈ (sampleGo l k r).1, x ∈ l
  | _, 0, _ => by simp [sampleGo]
  | l, k + 1, r => by
    unfold sampleGo
    by_cases hl : 0 < l.length
    · rw [dif_pos hl]
      intro x hx
      rcases List.mem_cons.mp hx with rfl | hx
      · exact List.get_mem _ _ _
      · exact List.eraseIdx_subset _ _ (sampleGo_subset _ k _ x hx)
    · rw [dif_neg hl]
      simp

/-- `random.sample` succeeds when the requested size does not exceed the
population. -/
theorem pySample_isSome {l : List ℕ} {k : ℕ} (h : k ≤ l.length) (r : Rng) :
    (pySample l k r).isSome := by
  unfold pySample
  rw [if_pos h]
  rfl

/-- `random.sample` picks members of the population. -/
theorem pySample_subset {l : List ℕ} {k : ℕ} {r : Rng} {out : List ℕ}
    {r' : Rng} (h : pySample l k r = some (out, r')) : ∀ x ∈ out, x ∈ l := by
  unfold pySample at h
  by_cases hk : k ≤ l.length
  · rw [if_pos hk] at h
    obtain ⟨h1, _⟩ := Prod.mk.injEq .. ▸ Option.some.inj h
    rw [← h1]
    exact sampleGo_subset l k r
  · rw [if_neg hk] at h
    exact absurd h (by simp)

/-- Membership in `range(1, max_number + 1)` is exactly `inRange`. -/
theorem mem_fullRange {maxN x : ℕ} : x ∈ fullRange maxN ↔ inRange maxN x := by
  unfold fullRange inRange
  rw [List.mem_range'_1]
  omega

/-- The low third is in range. -/
theorem lowRange_subset {maxN : ℕ} : ∀ x ∈ lowRange maxN, x ∈ fullRange maxN := by
  intro x hx
  unfold lowRange at hx
  rw [List.mem_range'_1] at hx
  rw [mem_fullRange]
  unfold inRange
  have := Nat.div_le_self maxN 3
  omega

/-- The middle third is in range. -/
theorem midRange_subset {maxN : ℕ} : ∀ x ∈ midRange maxN, x ∈ fullRange maxN := by
  intro x hx
  unfold midRange at hx
  rw [List.mem_range'_1] at hx
  rw [mem_fullRange]
  unfold inRange
  have := Nat.mul_div_le maxN 3
  omega

/-- The high third is in range. -/
theorem highRange_subset {maxN : ℕ} : ∀ x ∈ highRange maxN, x ∈ fullRange maxN := by
  intro x hx
  unfold highRange at hx
  rw [List.mem_range'_1] at hx
  rw [mem_fullRange]
  unfold inRange
  have := Nat.mul_div_le maxN 3
  omega

/-- `OkR` composes through `bind`. -/
theorem OkR_bind {maxN : ℕ} {m : Option (List ℕ × Rng)}
    {g : List ℕ × Rng → Option (List ℕ × Rng)} (hm : OkR maxN m)
    (hg : ∀ out r', (∀ x ∈ out, x ∈ fullRange maxN) → OkR maxN (g (out, r'))) :
    OkR maxN (m >>= g) := by
  obtain ⟨out, r', heq, hsub⟩ := hm
  rw [heq]
  simpa using hg out r' hsub

/-- A non-true `isEmpty` means a non-empty list. -/
theorem ne_nil_of_not_isEmpty {α : Type} {l : List α}
    (h : ¬l.isEmpty = true) : l ≠ [] := by
  intro hn
  rw [hn] at h
  exact h rfl

/-- The hot-preferring fill loop of `generate_with_patterns` always
succeeds and only appends in-range numbers. -/
theorem gwpFill_spec (maxN n : ℕ) (hw : List ℕ) :
    ∀ (fuel : ℕ) (result : List ℕ) (r : Rng),
      (∀ x ∈ result, x ∈ fullRange maxN) →
      OkR maxN (gwpFill maxN n hw fuel result r)
  | 0, result, r => fun hsub => ⟨result, r, rfl, hsub⟩
  | fuel + 1, result, r => by
    intro hsub
    unfold gwpFill
    dsimp only []
    by_cases hlt : result.length < n
    · rw [if_pos hlt]
      by_cases hemp : ((fullRange maxN).filter fun x => x ∉ result).isEmpty
      · rw [if_pos hemp]
        exact ⟨result, r, rfl, hsub⟩
      · rw [if_neg hemp]
        have hav_sub : ∀ x ∈ (fullRange maxN).filter (fun x => x ∉ result),
            x ∈ fullRange maxN := fun x hx => (List.mem_filter.mp hx).1
        have happ : ∀ c, c ∈ (fullRange maxN).filter (fun x => x ∉ result) →
            ∀ x ∈ result ++ [c], x ∈ fullRange maxN := by
          intro c hc x hx
          rcases List.mem_append.mp hx with hx | hx
          · exact hsub x hx
          · simp only [List.mem_singleton] at hx
            subst hx
            exact hav_sub _ hc
        by_cases hhemp : (hw.filter fun x =>
            x ∈ (fullRange maxN).filter fun x => x ∉ result).isEmpty
        · rw [if_pos hhemp]
          obtain ⟨⟨c, r'⟩, hch⟩ := Option.isSome_iff_exists.mp
            (pyChoice_isSome (ne_nil_of_not_isEmpty hemp) r)
          rw [hch]
          exact gwpFill_spec maxN n hw fuel (result ++ [c]) r'
            (happ c (pyChoice_mem hch))
        · rw [if_neg hhemp]
          obtain ⟨⟨c, r'⟩, hch⟩ := Option.isSome_iff_exists.mp
            (pyChoice_isSome (ne_nil_of_not_isEmpty hhemp) r)
          rw [hch]
          refine gwpFill_spec maxN n hw fuel (result ++ [c]) r'
            (happ c ?_)
          have hmem := pyChoice_mem hch
          exact of_decide_eq_true (List.mem_filter.mp hmem).2
    · rw [if_neg hlt]
      exact ⟨result, r, rfl, hsub⟩

/-- The even/odd balancing loop always succeeds and keeps every number in
range. -/
theorem balanceLoop_spec (maxN oe : ℕ) (hw : List ℕ) :
    ∀ (fuel : ℕ) (result : List ℕ) (r : Rng),
      (∀ x ∈ result, x ∈ fullRange maxN) →
      OkR maxN (balanceLoop maxN oe hw fuel result r)
  | 0, result, r => fun hsub => ⟨result, r, rfl, hsub⟩
  | fuel + 1, result, r => by
    intro hsub
    unfold balanceLoop
    dsimp only []
    by_cases habs :
        |((result.countP fun x => x % 2 = 0 : ℕ) : ℤ) - (oe : ℤ)| > 1
    · rw [if_pos habs]
      by_cases hdir : (result.countP fun x => x % 2 = 0) > oe
      · rw [if_pos hdir]
        by_cases hguard : ((result.filter fun x => x % 2 = 0).isEmpty = true) ∨
            (((fullRange maxN).filter fun x => x % 2 = 1 ∧ x ∉ result).isEmpty
              = true)
        · rw [if_pos hguard]
          exact balanceLoop_spec maxN oe hw fuel result r hsub
        · rw [if_neg hguard]
          push_neg at hguard
          obtain ⟨⟨e, r1⟩, hch1⟩ := Option.isSome_iff_exists.mp
            (pyChoice_isSome (ne_nil_of_not_isEmpty hguard.1) r)
          rw [hch1]
          dsimp only []
          have hoa_sub : ∀ x ∈ (fullRange maxN).filter
              (fun x => x % 2 = 1 ∧ x ∉ result), x ∈ fullRange maxN :=
            fun x hx => (List.mem_filter.mp hx).1
          have hpool_ne : (if (((fullRange maxN).filter
                fun x => x % 2 = 1 ∧ x ∉ result).filter
                fun x => x ∈ hw).isEmpty then
              (fullRange maxN).filter fun x => x % 2 = 1 ∧ x ∉ result
            else ((fullRange maxN).filter
                fun x => x % 2 = 1 ∧ x ∉ result).filter
                fun x => x ∈ hw) ≠ [] := by
            split_ifs with h
            · exact ne_nil_of_not_isEmpty hguard.2
            · exact ne_nil_of_not_isEmpty h
          obtain ⟨⟨c, r2⟩, hch2⟩ := Option.isSome_iff_exists.mp
            (pyChoice_isSome hpool_ne r1)
          rw [hch2]
          refine balanceLoop_spec maxN oe hw fuel (result.erase e ++ [c]) r2 ?_
          intro x hx
          rcases List.mem_append.mp hx with hx | hx
          · exact hsub x (List.erase_subset _ _ hx)
          · simp only [List.mem_singleton] at hx
            subst hx
            have hmem := pyChoice_mem hch2
            revert hmem
            split_ifs with h
            · exact fun hmem => hoa_sub _ hmem
            · exact fun hmem => hoa_sub _ (List.mem_filter.mp hmem).1
      · rw [if_neg hdir]
        by_cases hguard : ((result.filter fun x => x % 2 = 1).isEmpty = true) ∨
            (((fullRange maxN).filter fun x => x % 2 = 0 ∧ x ∉ result).isEmpty
              = true)
        · rw [if_pos hguard]
          exact balanceLoop_spec maxN oe hw fuel result r hsub
        · rw [if_neg hguard]
          push_neg at hguard
          obtain ⟨⟨o, r1⟩, hch1⟩ := Option.isSome_iff_exists.mp
            (pyChoice_isSome (ne_nil_of_not_isEmpty hguard.1) r)
          rw [hch1]
          dsimp only []
          have hoa_sub : ∀ x ∈ (fullRange maxN).filter
              (fun x => x % 2 = 0 ∧ x ∉ result), x ∈ fullRange maxN :=
            fun x hx => (List.mem_filter.mp hx).1
          have hpool_ne : (if (((fullRange maxN).filter
                fun x => x % 2 = 0 ∧ x ∉ result).filter
                fun x => x ∈ hw).isEmpty then
              (fullRange maxN).filter fun x => x % 2 = 0 ∧ x ∉ result
            else ((fullRange maxN).filter
                fun x => x % 2 = 0 ∧ x ∉ result).filter
                fun x => x ∈ hw) ≠ [] := by
            split_ifs with h
            · exact ne_nil_of_not_isEmpty hguard.2
            · exact ne_nil_of_not_isEmpty h
          obtain ⟨⟨c, r2⟩, hch2⟩ := Option.isSome_iff_exists.mp
            (pyChoice_isSome hpool_ne r1)
          rw [hch2]
          refine balanceLoop_spec maxN oe hw fuel (result.erase o ++ [c]) r2 ?_
          intro x hx
          rcases List.mem_append.mp hx with hx | hx
          · exact hsub x (List.erase_subset _ _ hx)
          · simp only [List.mem_singleton] at hx
            subst hx
            have hmem := pyChoice_mem hch2
            revert hmem
            split_ifs with h
            · exact fun hmem => hoa_sub _ hmem
            · exact fun hmem => hoa_sub _ (List.mem_filter.mp hmem).1
    · rw [if_neg habs]
      exact ⟨result, r, rfl, hsub⟩

/-- `OkR` for a bounded sample from an in-range pool. -/
theorem OkR_pySample {maxN : ℕ} {pool : List ℕ} {k : ℕ} (r : Rng)
    (hk : k ≤ pool.length) (hsub : ∀ x ∈ pool, x ∈ fullRange maxN) :
    OkR maxN (pySample pool k r) := by
  obtain ⟨⟨out, r'⟩, hs⟩ := Option.isSome_iff_exists.mp (pySample_isSome hk r)
  exact ⟨out, r', hs, fun x hx => hsub x (pySample_subset hs x hx)⟩

/-- `OkR` for `pure`. -/
theorem OkR_pure {maxN : ℕ} {out : List ℕ} {r : Rng}
    (hsub : ∀ x ∈ out, x ∈ fullRange maxN) :
    OkR maxN (pure (out, r) : Option (List ℕ × Rng)) :=
  ⟨out, r, rfl, hsub⟩

/-- The hot-preferring per-third pool (`*_hot ++ *_other`) stays inside the
full range when the third does. -/
theorem pool_subset_of_range {maxN : ℕ} {seg : List ℕ}
    (hseg : ∀ x ∈ seg, x ∈ fullRange maxN) (hw : List ℕ) :
    ∀ x ∈ (hw.filter fun x => x ∈ seg) ++
        (seg.filter fun x => x ∉ hw.filter fun x => x ∈ seg),
      x ∈ fullRange maxN := by
  intro x hx
  rcases List.mem_append.mp hx with hx | hx
  · exact hseg _ (of_decide_eq_true (List.mem_filter.mp hx).2)
  · exact hseg _ (List.mem_filter.mp hx).1

/-- Membership transport through `sorted(...)[: k]`. -/
theorem sorted_take_sub {maxN : ℕ} {l : List ℕ}
    (h : ∀ x ∈ l, x ∈ fullRange maxN) (k : ℕ) :
    ∀ x ∈ (l.insertionSort (· ≤ ·)).take k, x ∈ fullRange maxN :=
  fun x hx => h x ((List.perm_insertionSort _ l).mem_iff.mp
    (List.Sublist.mem hx (List.take_sublist _ _)))

/-- `gwpLowStep` always succeeds with in-range numbers. -/
theorem gwpLowStep_spec (maxN : ℕ) (hw : List ℕ) (tl : ℕ) (r : Rng) :
    OkR maxN (gwpLowStep maxN hw tl r) := by
  unfold gwpLowStep
  dsimp only []
  split_ifs with h
  · exact OkR_pySample r (min_le_right _ _)
      (pool_subset_of_range lowRange_subset hw)
  · exact OkR_pure (by simp)

/-- `gwpMidStep` always succeeds and preserves in-range numbers. -/
theorem gwpMidStep_spec (maxN : ℕ) (hw : List ℕ) (tm : ℕ) (result : List ℕ)
    (r : Rng) (hsub : ∀ x ∈ result, x ∈ fullRange maxN) :
    OkR maxN (gwpMidStep maxN hw tm result r) := by
  unfold gwpMidStep
  dsimp only []
  split_ifs with h
  · refine OkR_bind (OkR_pySample r (min_le_right _ _) ?_) ?_
    · intro x hx
      exact pool_subset_of_range midRange_subset hw x
        (List.mem_filter.mp hx).1
    · intro s r' hs
      dsimp only []
      refine OkR_pure ?_
      intro x hx
      rcases List.mem_append.mp hx with hx | hx
      · exact hsub x hx
      · exact hs x hx
  · exact OkR_pure hsub

/-- `gwpHighStep` always succeeds and preserves in-range numbers. -/
theorem gwpHighStep_spec (maxN : ℕ) (hw : List ℕ) (th : ℕ) (result : List ℕ)
    (r : Rng) (hsub : ∀ x ∈ result, x ∈ fullRange maxN) :
    OkR maxN (gwpHighStep maxN hw th result r) := by
  unfold gwpHighStep
  dsimp only []
  split_ifs with h
  · refine OkR_bind (OkR_pySample r (min_le_right _ _) ?_) ?_
    · intro x hx
      exact pool_subset_of_range highRange_subset hw x
        (List.mem_filter.mp hx).1
    · intro s r' hs
      dsimp only []
      refine OkR_pure ?_
      intro x hx
      rcases List.mem_append.mp hx with hx | hx
      · exact hsub x hx
      · exact hs x hx
  · exact OkR_pure hsub

/-- `generate_with_patterns` always succeeds and yields in-range numbers,
for every statistics input and entropy stream. -/
theorem gwp_spec (maxN n : ℕ) (hot_nums : List ℕ)
    (optimal_range : Option (ℕ × ℕ × ℕ)) (oe : ℕ) (r : Rng) :
    OkR maxN (generate_with_patterns maxN n hot_nums optimal_range oe r) := by
  unfold generate_with_patterns
  dsimp only []
  refine OkR_bind (gwpLowStep_spec maxN _ _ r) ?_
  intro out r1 hsub1
  dsimp only []
  refine OkR_bind (gwpMidStep_spec maxN _ _ _ r1 hsub1) ?_
  intro out2 r2 hsub2
  dsimp only []
  refine OkR_bind (gwpHighStep_spec maxN _ _ _ r2 hsub2) ?_
  intro out3 r3 hsub3
  dsimp only []
  refine OkR_bind (gwpFill_spec maxN n _ n out3 r3 hsub3) ?_
  intro out4 r4 hsub4
  dsimp only []
  refine OkR_bind (balanceLoop_spec maxN oe _ 10 _ r4
    (sorted_take_sub hsub4 n)) ?_
  intro out5 r5 hsub5
  dsimp only []
  exact OkR_pure (sorted_take_sub hsub5 n)

/-- Reduction of `Option`'s bind on a present value. -/
theorem option_bind_some {α β : Type} (a : α) (f : α → Option β) :
    (some a >>= f) = f a := rfl

/-- The `smart` candidate loop always succeeds, and its best candidate (if
any) is in range. -/
theorem smartLoop_spec (maxN n : ℕ) (hot_nums : List ℕ)
    (optimal_range : Option (ℕ × ℕ × ℕ)) (oe : ℕ) (smin smax : ℤ) :
    ∀ (fuel : ℕ) (best : Option (List ℕ)) (score : ℤ) (r : Rng),
      (∀ l, best = some l → ∀ x ∈ l, x ∈ fullRange maxN) →
      OkRO maxN (smartLoop maxN n hot_nums optimal_range oe smin smax
        fuel best score r)
  | 0, best, _, r => fun hb => ⟨best, r, rfl, hb⟩
  | fuel + 1, best, score, r => by
    intro hb
    unfold smartLoop
    obtain ⟨cand, r1, heq, hcand⟩ := gwp_spec maxN n hot_nums optimal_range oe r
    rw [heq, option_bind_some]
    dsimp only []
    split_ifs with hv hsc
    · exact smartLoop_spec maxN n hot_nums optimal_range oe smin smax fuel
        (some cand) _ r1 fun l hl => by
          obtain rfl := Option.some.inj hl
          exact hcand
    · exact smartLoop_spec maxN n hot_nums optimal_range oe smin smax fuel
        best score r1 hb
    · exact smartLoop_spec maxN n hot_nums optimal_range oe smin smax fuel
        best score r1 hb

/-- The `hot` retry loop always succeeds with in-range numbers (or `[]`). -/
theorem hotLoop_spec (maxN n : ℕ) (hot_nums : List ℕ) (smin smax : ℤ)
    (oe : ℕ) (hhot : ∀ x ∈ hot_nums, x ∈ fullRange maxN) :
    ∀ (fuel : ℕ) (r : Rng),
      OkR maxN (hotLoop maxN n hot_nums smin smax oe fuel r)
  | 0, r => ⟨[], r, rfl, by simp⟩
  | fuel + 1, r => by
    unfold hotLoop
    have h1 : maxN / 4 ≤ (fullRange maxN).length := by
      rw [fullRange, List.length_range']
      exact Nat.div_le_self _ _
    obtain ⟨samp, r1, heq1, hsamp⟩ :=
      @OkR_pySample maxN (fullRange maxN) (maxN / 4) r h1 fun _ hx => hx
    rw [heq1, option_bind_some]
    dsimp only []
    have hpool : ∀ x ∈ pyDedupFirst (hot_nums.take 15 ++ samp),
        x ∈ fullRange maxN := by
      intro x hx
      rcases List.mem_append.mp (mem_pyDedupFirst.mp hx) with hx | hx
      · exact hhot x (List.take_subset _ _ hx)
      · exact hsamp x hx
    obtain ⟨cand, r2, heq2, hcand⟩ := OkR_pySample r1 (min_le_right _ _) hpool
    rw [heq2, option_bind_some]
    dsimp only []
    split_ifs with hv
    · exact ⟨cand, r2, rfl, hcand⟩
    · exact hotLoop_spec maxN n hot_nums smin smax oe hhot fuel r2

/-- The `cold` retry loop always succeeds with numbers from its pool (or
`[]`). -/
theorem coldLoop_spec (pool : List ℕ) (n : ℕ) (smin smax : ℤ) (oe : ℕ)
    (maxN : ℕ) (hpool : ∀ x ∈ pool, x ∈ fullRange maxN) :
    ∀ (fuel : ℕ) (r : Rng), OkR maxN (coldLoop pool n smin smax oe fuel r)
  | 0, r => ⟨[], r, rfl, by simp⟩
  | fuel + 1, r => by
    unfold coldLoop
    have hk : min n pool.length ≤ (pool.take (max 30 (n + 10))).length := by
      rw [List.length_take]
      have h2 : min n pool.length ≤ n := min_le_left _ _
      have h1 : min n pool.length ≤ pool.length := min_le_right _ _
      have h3 : n ≤ max 30 (n + 10) := le_trans (by omega) (le_max_right _ _)
      omega
    obtain ⟨cand, r1, heq, hcand⟩ := OkR_pySample r hk
      fun x hx => hpool x (List.take_subset _ _ hx)
    rw [heq, option_bind_some]
    dsimp only []
    split_ifs with hv
    · exact ⟨cand, r1, rfl, hcand⟩
    · exact coldLoop_spec pool n smin smax oe maxN hpool fuel r1

/-- The `balanced` retry loop always succeeds with in-range numbers (or
`[]`). -/
theorem balancedLoop_spec (maxN n : ℕ) (hot_nums : List ℕ)
    (optimal_range : Option (ℕ × ℕ × ℕ)) (oe : ℕ) (smin smax : ℤ) :
    ∀ (fuel : ℕ) (r : Rng),
      OkR maxN (balancedLoop maxN n hot_nums optimal_range oe smin smax
        fuel r)
  | 0, r => ⟨[], r, rfl, by simp⟩
  | fuel + 1, r => by
    unfold balancedLoop
    obtain ⟨cand, r1, heq, hcand⟩ := gwp_spec maxN n hot_nums optimal_range oe r
    rw [heq, option_bind_some]
    dsimp only []
    split_ifs with hv
    · exact ⟨cand, r1, rfl, hcand⟩
    · exact balancedLoop_spec maxN n hot_nums optimal_range oe smin smax
        fuel r1

/-- One coverage third's sampling succeeds when its pick count is clamped
to the third's size. -/
theorem covPickStep_spec {maxN : ℕ} (seg : List ℕ) (k : ℕ) (r : Rng)
    (hseg : ∀ x ∈ seg, x ∈ fullRange maxN) (hk : k ≤ seg.length) :
    OkR maxN (covPickStep seg k r) := by
  unfold covPickStep
  split_ifs with h
  · exact OkR_pySample r hk hseg
  · exact OkR_pure (by simp)

/-- The high third's guarded sampling always succeeds. -/
theorem covHighStep_spec (maxN : ℕ) (hp : ℤ) (r : Rng) :
    OkR maxN (covHighStep maxN hp r) := by
  unfold covHighStep
  split_ifs with h
  · exact OkR_pySample r (by omega) highRange_subset
  · exact OkR_pure (by simp)

/-- The coverage fill loop never runs out of numbers (when
`numbers_to_pick ≤ max_number`) and keeps everything in range. -/
theorem covFill_spec (maxN n : ℕ) (hnm : n ≤ maxN) :
    ∀ (fuel : ℕ) (c : List ℕ) (r : Rng),
      (∀ x ∈ c, x ∈ fullRange maxN) → OkR maxN (covFill maxN n fuel c r)
  | 0, c, r => fun hsub => ⟨c, r, rfl, hsub⟩
  | fuel + 1, c, r => by
    intro hsub
    unfold covFill
    dsimp only []
    by_cases hlt : c.length < n
    · rw [if_pos hlt]
      have hne : (fullRange maxN).filter (fun x => x ∉ c) ≠ [] := by
        intro hempty
        have hsubr : fullRange maxN ⊆ c := by
          intro x hx
          by_contra hxc
          have hmem : x ∈ (fullRange maxN).filter fun x => x ∉ c :=
            List.mem_filter.mpr ⟨hx, by simpa using hxc⟩
          rw [hempty] at hmem
          simp at hmem
        have hnd : (fullRange maxN).Nodup := by
          unfold fullRange
          exact List.nodup_range' _ _
        have hle := (List.subperm_of_subset hnd hsubr).length_le
        rw [fullRange, List.length_range'] at hle
        omega
      obtain ⟨⟨x, r'⟩, hch⟩ := Option.isSome_iff_exists.mp
        (pyChoice_isSome hne r)
      rw [hch, option_bind_some]
      dsimp only []
      refine covFill_spec maxN n hnm fuel (c ++ [x]) r' ?_
      intro y hy
      rcases List.mem_append.mp hy with hy | hy
      · exact hsub y hy
      · simp only [List.mem_singleton] at hy
        subst hy
        exact (List.mem_filter.mp (pyChoice_mem hch)).1
    · rw [if_neg hlt]
      exact ⟨c, r, rfl, hsub⟩

/-- The `coverage` retry loop always succeeds (when
`numbers_to_pick ≤ max_number`) with in-range numbers (or `[]`). -/
theorem covLoop_spec (maxN n : ℕ) (optimal_range : Option (ℕ × ℕ × ℕ))
    (smin smax : ℤ) (oe : ℕ) (hnm : n ≤ maxN) :
    ∀ (fuel : ℕ) (r : Rng),
      OkR maxN (covLoop maxN n optimal_range smin smax oe fuel r)
  | 0, r => ⟨[], r, rfl, by simp⟩
  | fuel + 1, r => by
    unfold covLoop
    dsimp only []
    obtain ⟨c1, r1, heq1, h1⟩ := covPickStep_spec (lowRange maxN) _ r
      lowRange_subset (min_le_right _ _)
    rw [heq1, option_bind_some]
    dsimp only []
    obtain ⟨c2, r2, heq2, h2⟩ := covPickStep_spec (midRange maxN) _ r1
      midRange_subset (min_le_right _ _)
    rw [heq2, option_bind_some]
    dsimp only []
    obtain ⟨c3, r3, heq3, h3⟩ := covHighStep_spec maxN _ r2
    rw [heq3, option_bind_some]
    dsimp only []
    obtain ⟨cand, r4, heq4, h4⟩ := covFill_spec maxN n hnm n
      (c1 ++ c2 ++ c3) r3 (by
        intro x hx
        rcases List.mem_append.mp hx with hx | hx
        · rcases List.mem_append.mp hx with hx | hx
          · exact h1 x hx
          · exact h2 x hx
        · exact h3 x hx)
    rw [heq4, option_bind_some]
    dsimp only []
    split_ifs with hv
    · exact ⟨cand, r4, rfl, h4⟩
    · exact covLoop_spec maxN n optimal_range smin smax oe hnm fuel r4

/-- The `smart` branch always succeeds with in-range numbers. -/
theorem smartBranch_spec (maxN n : ℕ) (hot_nums : List ℕ)
    (optimal_range : Option (ℕ × ℕ × ℕ)) (oe : ℕ) (smin smax : ℤ) (r : Rng) :
    OkR maxN (smartBranch maxN n hot_nums optimal_range oe smin smax r) := by
  unfold smartBranch
  obtain ⟨best, r1, heq, hbest⟩ := smartLoop_spec maxN n hot_nums
    optimal_range oe smin smax 50 none (-1) r (by simp)
  rw [heq, option_bind_some]
  dsimp only []
  cases best with
  | some b => exact OkR_pure (hbest b rfl)
  | none => exact gwp_spec maxN n hot_nums optimal_range oe r1

/-- The `hot` branch always succeeds with in-range numbers, given in-range
hot statistics and `numbers_to_pick ≤ min(20, max_number)`. -/
theorem hotBranch_spec (maxN n : ℕ) (hot_nums : List ℕ) (smin smax : ℤ)
    (oe : ℕ) (r : Rng) (hhot : ∀ x ∈ hot_nums, x ∈ fullRange maxN)
    (hnm : n ≤ maxN) (hn20 : n ≤ 20) :
    OkR maxN (hotBranch maxN n hot_nums smin smax oe r) := by
  unfold hotBranch
  obtain ⟨sel, r1, heq, hsel⟩ := hotLoop_spec maxN n hot_nums smin smax oe
    hhot 20 r
  rw [heq, option_bind_some]
  dsimp only []
  split_ifs with hemp h20
  · refine OkR_pySample r1 ?_ fun x hx => hhot x (List.take_subset _ _ hx)
    rw [List.length_take]
    omega
  · exact OkR_pySample r1
      (by rw [fullRange, List.length_range']; exact hnm) fun _ hx => hx
  · exact OkR_pure hsel

/-- The `cold` branch always succeeds with in-range numbers, given in-range
cold/delayed statistics. -/
theorem coldBranch_spec (maxN n : ℕ) (cold_nums delayed_nums : List ℕ)
    (smin smax : ℤ) (oe : ℕ) (r : Rng)
    (hcold : ∀ x ∈ cold_nums, x ∈ fullRange maxN)
    (hdel : ∀ x ∈ delayed_nums, x ∈ fullRange maxN) :
    OkR maxN (coldBranch maxN n cold_nums delayed_nums smin smax oe r) := by
  unfold coldBranch
  dsimp only []
  have hpool0 : ∀ x ∈ pyDedupFirst (cold_nums ++ delayed_nums),
      x ∈ fullRange maxN := by
    intro x hx
    rcases List.mem_append.mp (mem_pyDedupFirst.mp hx) with hx | hx
    · exact hcold x hx
    · exact hdel x hx
  have hpool : ∀ x ∈ (if (pyDedupFirst (cold_nums ++ delayed_nums)).length < n
      then pyDedupFirst (cold_nums ++ delayed_nums) ++
        (fullRange maxN).filter fun x =>
          x ∉ pyDedupFirst (cold_nums ++ delayed_nums)
      else pyDedupFirst (cold_nums ++ delayed_nums)), x ∈ fullRange maxN := by
    split_ifs with hshort
    · intro x hx
      rcases List.mem_append.mp hx with hx | hx
      · exact hpool0 x hx
      · exact (List.mem_filter.mp hx).1
    · exact hpool0
  obtain ⟨sel, r1, heq, hsel⟩ := coldLoop_spec _ n smin smax oe maxN hpool 20 r
  rw [heq, option_bind_some]
  dsimp only []
  split_ifs with hemp hshort
  · exact OkR_pySample r1 (min_le_right _ _) (by
      intro x hx
      rcases List.mem_append.mp hx with hx | hx
      · exact hpool0 x hx
      · exact (List.mem_filter.mp hx).1)
  · exact OkR_pySample r1 (min_le_right _ _) hpool0
  · exact OkR_pure hsel

/-- The `balanced` branch always succeeds with in-range numbers. -/
theorem balancedBranch_spec (maxN n : ℕ) (hot_nums : List ℕ)
    (optimal_range : Option (ℕ × ℕ × ℕ)) (oe : ℕ) (smin smax : ℤ) (r : Rng) :
    OkR maxN (balancedBranch maxN n hot_nums optimal_range oe smin smax r) := by
  unfold balancedBranch
  obtain ⟨sel, r1, heq, hsel⟩ := balancedLoop_spec maxN n hot_nums
    optimal_range oe smin smax 30 r
  rw [heq, option_bind_some]
  dsimp only []
  split_ifs with hemp
  · exact gwp_spec maxN n hot_nums optimal_range oe r1
  · exact OkR_pure hsel

/-- The `coverage` branch always succeeds with in-range numbers. -/
theorem covBranch_spec (maxN n : ℕ) (hot_nums : List ℕ)
    (optimal_range : Option (ℕ × ℕ × ℕ)) (oe : ℕ) (smin smax : ℤ) (r : Rng)
    (hnm : n ≤ maxN) :
    OkR maxN (covBranch maxN n hot_nums optimal_range oe smin smax r) := by
  unfold covBranch
  obtain ⟨sel, r1, heq, hsel⟩ := covLoop_spec maxN n optimal_range smin smax
    oe hnm 20 r
  rw [heq, option_bind_some]
  dsimp only []
  split_ifs with hemp
  · exact gwp_spec maxN n hot_nums optimal_range oe r1
  · exact OkR_pure hsel

/-- Reduction of `Option.bind` on a present value. -/
theorem option_dot_bind_some {α β : Type} (a : α) (f : α → Option β) :
    (some a).bind f = f a := rfl

/-- The final fill loop reaches exactly `numbers_to_pick` distinct in-range
numbers from any deduplicated, truncated start (fuel
`numbers_to_pick` suffices: each pass adds one fresh number). -/
theorem postFill_spec (maxN n : ℕ) (hnm : n ≤ maxN) :
    ∀ (fuel : ℕ) (sel : List ℕ) (r : Rng), sel.Nodup →
      (∀ x ∈ sel, x ∈ fullRange maxN) → sel.length ≤ n →
      n ≤ fuel + sel.length →
      ∃ out r', postFill maxN n fuel sel r = some (out, r') ∧
        out.length = n ∧ out.Nodup ∧ ∀ x ∈ out, x ∈ fullRange maxN
  | 0, sel, r => by
    intro hnd hsub hle hfuel
    have hlen : sel.length = n := by omega
    exact ⟨sel, r, rfl, hlen, hnd, hsub⟩
  | fuel + 1, sel, r => by
    intro hnd hsub hle hfuel
    unfold postFill
    dsimp only []
    by_cases hlt : sel.length < n
    · rw [if_pos hlt]
      have hne : (fullRange maxN).filter (fun x => x ∉ sel) ≠ [] := by
        intro hempty
        have hsubr : fullRange maxN ⊆ sel := by
          intro x hx
          by_contra hxc
          have hmem : x ∈ (fullRange maxN).filter fun x => x ∉ sel :=
            List.mem_filter.mpr ⟨hx, by simpa using hxc⟩
          rw [hempty] at hmem
          simp at hmem
        have hnd' : (fullRange maxN).Nodup := by
          unfold fullRange
          exact List.nodup_range' _ _
        have hle' := (List.subperm_of_subset hnd' hsubr).length_le
        rw [fullRange, List.length_range'] at hle'
        omega
      have hemp : ¬((fullRange maxN).filter fun x => x ∉ sel).isEmpty = true :=
        fun h => hne (List.isEmpty_iff.mp h)
      rw [if_neg hemp]
      obtain ⟨⟨x, r'⟩, hch⟩ := Option.isSome_iff_exists.mp
        (pyChoice_isSome hne r)
      rw [hch, option_bind_some]
      dsimp only []
      have hxmem := List.mem_filter.mp (pyChoice_mem hch)
      have hxnotin : x ∉ sel := of_decide_eq_true hxmem.2
      refine postFill_spec maxN n hnm fuel (sel ++ [x]) r' ?_ ?_ ?_ ?_
      · rw [List.nodup_append]
        refine ⟨hnd, List.nodup_singleton x, ?_⟩
        intro a ha hax
        simp only [List.mem_singleton] at hax
        subst hax
        exact hxnotin ha
      · intro y hy
        rcases List.mem_append.mp hy with hy | hy
        · exact hsub y hy
        · simp only [List.mem_singleton] at hy
          subst hy
          exact hxmem.1
      · rw [List.length_append]
        simpa using hlt
      · rw [List.length_append]
        simp only [List.length_singleton]
        omega
    · rw [if_neg hlt]
      have hlen : sel.length = n := by omega
      exact ⟨sel, r, rfl, hlen, hnd, hsub⟩

/-- The post-processing of `generate_smart_bet` turns any in-range
selection into a valid-shaped pick: exactly `numbers_to_pick` distinct
in-range numbers, sorted ascending. -/
theorem finalizeBet_spec (maxN n : ℕ) (hnm : n ≤ maxN) (selected : List ℕ)
    (r : Rng) (hsub : ∀ x ∈ selected, x ∈ fullRange maxN) :
    ∃ nums r', finalizeBet maxN n selected r = some (nums, r') ∧
      nums.length = n ∧ nums.Nodup ∧ nums.Sorted (· ≤ ·) ∧
      ∀ x ∈ nums, inRange maxN x := by
  unfold finalizeBet
  dsimp only []
  have hnd : (((pyDedupFirst selected).insertionSort (· ≤ ·)).take n).Nodup :=
    List.Nodup.sublist (List.take_sublist _ _)
      ((List.perm_insertionSort _ _).nodup_iff.mpr (pyDedupFirst_nodup selected))
  have hsub' : ∀ x ∈ ((pyDedupFirst selected).insertionSort (· ≤ ·)).take n,
      x ∈ fullRange maxN :=
    sorted_take_sub (fun x hx => hsub x (mem_pyDedupFirst.mp hx)) n
  have hlen : (((pyDedupFirst selected).insertionSort (· ≤ ·)).take n).length
      ≤ n := by
    rw [List.length_take]
    exact min_le_left _ _
  obtain ⟨out, r2, heq, holen, hond, hosub⟩ := postFill_spec maxN n hnm n
    (((pyDedupFirst selected).insertionSort (· ≤ ·)).take n) r hnd hsub'
    hlen (by omega)
  rw [heq, option_bind_some]
  dsimp only []
  refine ⟨out.insertionSort (· ≤ ·), r2, rfl, ?_, ?_, ?_, ?_⟩
  · rw [(List.perm_insertionSort _ out).length_eq, holen]
  · exact (List.perm_insertionSort _ out).nodup_iff.mpr hond
  · exact List.sorted_insertionSort _ out
  · intro x hx
    exact mem_fullRange.mp
      (hosub x ((List.perm_insertionSort _ out).mem_iff.mp hx))

/-- Strategy dispatch plus post-processing: for every strategy string, with
in-range statistics pools and `numbers_to_pick ≤ min(20, max_number)`, the
generator body produces a valid-shaped pick. -/
theorem generate_dispatch (maxN n : ℕ) (strategy : String)
    (hot_nums cold_nums delayed_nums : List ℕ)
    (optimal_range : Option (ℕ × ℕ × ℕ)) (oe : ℕ) (smin smax : ℤ) (r : Rng)
    (hh : ∀ x ∈ hot_nums, x ∈ fullRange maxN)
    (hc : ∀ x ∈ cold_nums, x ∈ fullRange maxN)
    (hd : ∀ x ∈ delayed_nums, x ∈ fullRange maxN)
    (hnm : n ≤ maxN) (hn20 : n ≤ 20) :
    ∃ nums r',
      ((if strategy = "smart" then
          smartBranch maxN n hot_nums optimal_range oe smin smax r
        else if strategy = "hot" then
          hotBranch maxN n hot_nums smin smax oe r
        else if strategy = "cold" then
          coldBranch maxN n cold_nums delayed_nums smin smax oe r
        else if strategy = "balanced" then
          balancedBranch maxN n hot_nums optimal_range oe smin smax r
        else if strategy = "coverage" then
          covBranch maxN n hot_nums optimal_range oe smin smax r
        else pure ([], r)).bind fun p => finalizeBet maxN n p.1 p.2)
        = some (nums, r') ∧
      nums.length = n ∧ nums.Nodup ∧ nums.Sorted (· ≤ ·) ∧
      ∀ x ∈ nums, inRange maxN x := by
  have hbranch : OkR maxN
      (if strategy = "smart" then
          smartBranch maxN n hot_nums optimal_range oe smin smax r
        else if strategy = "hot" then
          hotBranch maxN n hot_nums smin smax oe r
        else if strategy = "cold" then
          coldBranch maxN n cold_nums delayed_nums smin smax oe r
        else if strategy = "balanced" then
          balancedBranch maxN n hot_nums optimal_range oe smin smax r
        else if strategy = "coverage" then
          covBranch maxN n hot_nums optimal_range oe smin smax r
        else pure ([], r)) := by
    split_ifs
    · exact smartBranch_spec maxN n hot_nums optimal_range oe smin smax r
    · exact hotBranch_spec maxN n hot_nums smin smax oe r hh hnm hn20
    · exact coldBranch_spec maxN n cold_nums delayed_nums smin smax oe r hc hd
    · exact balancedBranch_spec maxN n hot_nums optimal_range oe smin smax r
    · exact covBranch_spec maxN n hot_nums optimal_range oe smin smax r hnm
    · exact OkR_pure (by simp)
  obtain ⟨selected, r1, heqb, hsubsel⟩ := hbranch
  rw [heqb, option_dot_bind_some]
  exact finalizeBet_spec maxN n hnm selected r1 hsubsel

/-- C1: for every lottery game configuration and every strategy in
{smart, hot, cold, balanced, coverage}, `generate_smart_bet` returns —
without failing, for every entropy stream, every pattern-analysis input and
every statistics value whose hot/cold/delayed numbers are in range — a bet
whose numbers are exactly `numbers_to_pick` distinct integers in
`[1, max_number]`, sorted ascending (falling back to uniform random fill
when a strategy's constrained search is exhausted). -/
theorem C1_generate_smart_bet (lt : LotteryType) (strategy : String)
    (_hstrat : strategy ∈ ["smart", "hot", "cold", "balanced", "coverage"])
    (stats : Statistics) (pa : Option PatternAnalysis) (r : Rng)
    (hhot : ∀ e ∈ stats.hot_numbers,
      inRange (lotteryConfig lt).max_number e.number)
    (hcold : ∀ e ∈ stats.cold_numbers,
      inRange (lotteryConfig lt).max_number e.number)
    (hdel : ∀ p ∈ stats.delayed_numbers,
      inRange (lotteryConfig lt).max_number p.1) :
    ∃ nums r',
      generate_smart_bet_numbers stats lt strategy pa r = some (nums, r') ∧
      validShape (lotteryConfig lt) nums := by
  have hnm : (lotteryConfig lt).numbers_to_pick ≤
      (lotteryConfig lt).max_number := by
    cases lt <;> decide
  have hn20 : (lotteryConfig lt).numbers_to_pick ≤ 20 := by
    cases lt <;> decide
  have hhot' : ∀ x ∈ stats.hot_numbers.map (·.number),
      x ∈ fullRange (lotteryConfig lt).max_number := by
    intro x hx
    obtain ⟨e, he, rfl⟩ := List.mem_map.mp hx
    exact mem_fullRange.mpr (hhot e he)
  have hcold' : ∀ x ∈ stats.cold_numbers.map (·.number),
      x ∈ fullRange (lotteryConfig lt).max_number := by
    intro x hx
    obtain ⟨e, he, rfl⟩ := List.mem_map.mp hx
    exact mem_fullRange.mpr (hcold e he)
  have hdel' : ∀ x ∈ stats.delayed_numbers.filterMap
      (fun d => if d.2.isSome then some d.1 else none),
      x ∈ fullRange (lotteryConfig lt).max_number := by
    intro x hx
    obtain ⟨p, hp, heq⟩ := List.mem_filterMap.mp hx
    by_cases h : p.2.isSome
    · rw [if_pos h] at heq
      obtain rfl := Option.some.inj heq
      exact mem_fullRange.mpr (hdel p hp)
    · rw [if_neg h] at heq
      exact absurd heq (by simp)
  unfold generate_smart_bet_numbers
  dsimp only []
  obtain ⟨nums, r', heq, h1, h2, h3, h4⟩ := generate_dispatch
    (lotteryConfig lt).max_number (lotteryConfig lt).numbers_to_pick strategy
    (stats.hot_numbers.map (·.number)) (stats.cold_numbers.map (·.number))
    (stats.delayed_numbers.filterMap fun d =>
      if d.2.isSome then some d.1 else none)
    (match pa with
      | some p => some (p.optimal_range.getD
          ((lotteryConfig lt).numbers_to_pick / 3,
           (lotteryConfig lt).numbers_to_pick / 3,
           (lotteryConfig lt).numbers_to_pick / 3))
      | none => none)
    (match pa with
      | some p => p.optimal_even.getD ((lotteryConfig lt).numbers_to_pick / 2)
      | none => (lotteryConfig lt).numbers_to_pick / 2)
    (match pa with
      | some p => p.optimal_sum_min.getD 0
      | none => 0)
    (match pa with
      | some p => p.optimal_sum_max.getD
          ((lotteryConfig lt).max_number * (lotteryConfig lt).numbers_to_pick)
      | none =>
          (lotteryConfig lt).max_number * (lotteryConfig lt).numbers_to_pick)
    r hhot' hcold' hdel' hnm hn20
  exact ⟨nums, r', heq, h1, h2, h3, h4⟩

/-- Witness for `C1_generate_smart_bet`: lotofacil, strategy `"smart"`,
empty statistics, no pattern analysis, exhausted entropy stream. -/
theorem C1_witness :
    ∃ nums r',
      generate_smart_bet_numbers ⟨[], [], [], (0, 0), (0, 0, 0), 0⟩
        .lotofacil "smart" none ⟨[]⟩ = some (nums, r') ∧
      validShape (lotteryConfig .lotofacil) nums :=
  C1_generate_smart_bet .lotofacil "smart" (by decide)
    ⟨[], [], [], (0, 0), (0, 0, 0), 0⟩ none ⟨[]⟩
    (by simp) (by simp) (by simp)
